import Mathlib

/-!
Verification development for the CV text-extraction engine in
`server/python/extract_pdf.py` (repository crisedua/cvpanda).

The Python source is shallowly embedded: strings are `List Char`, the
regular expressions of the source are translated into a small backtracking
matcher (`RE` / `matchL`) whose candidate order mirrors the order a
backtracking regex engine (leftmost position, alternatives in written
order, greedy repetition) explores, and each extractor of the source is a
computable Lean function.  `re.IGNORECASE` is modelled with ASCII case
folding (`Char.toLower`); every concrete input appearing in a theorem is
ASCII, so this agrees with the source on everything stated here.
-/

namespace CvPanda

/-- Strings of the embedded program: Python `str` as a list of characters. -/
abbrev Str := List Char

/-- Characters Python's `str.strip()` and the regex class `\s` treat as
whitespace (ASCII part). -/
def isPySpace (c : Char) : Bool :=
  c = ' ' || c = '\t' || c = '\n' || c = '\r' || c = '\x0b' || c = '\x0c'

/-- Regex class `\d` (ASCII). -/
def isDigitC (c : Char) : Bool := '0' ≤ c && c ≤ '9'

/-- Uppercase letter, for Python's `str.isupper()` on one character (ASCII). -/
def isUpperC (c : Char) : Bool := 'A' ≤ c && c ≤ 'Z'

/-- ASCII letter; the regex class `[a-z]` (resp. `[A-Za-z]`) under
`re.IGNORECASE` accepts both cases. -/
def isAlphaC (c : Char) : Bool := ('a' ≤ c && c ≤ 'z') || ('A' ≤ c && c ≤ 'Z')

/-- Regex class `\w` (ASCII), used for `\b` word boundaries. -/
def isWordC (c : Char) : Bool := isAlphaC c || isDigitC c || c = '_'

/-- Case-insensitive character comparison (ASCII folding). -/
def ciEq (a b : Char) : Bool := a.toLower = b.toLower

/-- Python `str.strip()` on the right. -/
def rstrip (s : Str) : Str := (s.reverse.dropWhile isPySpace).reverse

/-- Python `str.strip()`: drop leading and trailing whitespace. -/
def strip (s : Str) : Str := rstrip (s.dropWhile isPySpace)

/-- Python `text.split('\n')`. -/
def splitLines : Str → List Str
  | [] => [[]]
  | c :: r =>
    if c = '\n' then [] :: splitLines r
    else
      match splitLines r with
      | l :: ls => (c :: l) :: ls
      | [] => [[c]]

/-- Python `'\n'.join(lines)`. -/
def joinNL (ls : List Str) : Str := List.intercalate ['\n'] ls

/-- Python slicing `text[a:b]` (for `0 ≤ a, b`; empty when `a ≥ b`). -/
def pySlice (s : Str) (a b : Nat) : Str := (s.take b).drop a

/-- Number of whitespace-separated tokens, i.e. Python `len(s.split())`:
the number of maximal runs of non-whitespace characters. -/
def wsTokens (s : Str) : Nat := go true s where
  go : Bool → Str → Nat
    | _, [] => 0
    | prevWs, c :: r =>
      (if !isPySpace c && prevWs then 1 else 0) + go (isPySpace c) r

theorem splitLines_ne_nil (s : Str) : splitLines s ≠ [] := by
  induction s with
  | nil => simp [splitLines]
  | cons c r ih =>
    simp only [splitLines]
    split
    · simp
    · cases h : splitLines r with
      | nil => simp
      | cons l ls => simp

/-! ### A small backtracking regex matcher

`matchL re s` returns the list of `(consumed, rest)` pairs, with
`consumed ++ rest = s`, in exactly the order a backtracking engine tries
them: alternatives in written order, repetition greedy (longest first).
The head of the list is therefore the match a Python `re` search reports
at this position. -/

inductive RE where
  | cls (p : Char → Bool)
  | lit (ci : Bool) (w : Str)
  | seq (a b : RE)
  | alt (a b : RE)
  | star (p : Char → Bool)
  | eps

/-- Character comparison used by literals: case-insensitive when `ci`. -/
def chEq (ci : Bool) (a b : Char) : Bool := if ci then ciEq a b else a = b

/-- Test whether the word `w` matches a prefix of `s` (case-insensitively
when `ci`); the consumed characters of the match keep the casing of `s`,
as `group(0)` does. -/
def litMatch (ci : Bool) : Str → Str → Bool
  | [], _ => true
  | _ :: _, [] => false
  | c :: w', x :: s' => chEq ci c x && litMatch ci w' s'

/-- Candidate splits for a greedy `p*`: longest first. -/
def starSplits (p : Char → Bool) (s : Str) : List (Str × Str) :=
  (List.range ((s.takeWhile p).length + 1)).reverse.map
    (fun k => (s.take k, s.drop k))

def matchL : RE → Str → List (Str × Str)
  | .cls _, [] => []
  | .cls p, c :: r => if p c then [([c], r)] else []
  | .lit ci w, s =>
    if litMatch ci w s then [(s.take w.length, s.drop w.length)] else []
  | .seq a b, s =>
    (matchL a s).flatMap
      (fun cr => (matchL b cr.2).map (fun cr' => (cr.1 ++ cr'.1, cr'.2)))
  | .alt a b, s => matchL a s ++ matchL b s
  | .star p, s => starSplits p s
  | .eps, s => [([], s)]

/-- Greedy `p+` as `p p*`, which yields candidates longest-first. -/
def rePlus (p : Char → Bool) : RE := .seq (.cls p) (.star p)

/-- Optional part `(?:...)?`, greedy. -/
def reOpt (a : RE) : RE := .alt a .eps

/-- A regex that never matches; used as the tail of alternation lists. -/
def reFail : RE := .cls (fun _ => false)

/-- Alternation of a list of regexes, in written (leftmost-first) order. -/
def altList (l : List RE) : RE := l.foldr .alt reFail

/-- Case-insensitive alternation of literal words. -/
def litsCI (ws : List String) : RE := altList (ws.map (fun w => .lit true w.data))

/-- Case-sensitive alternation of literal words. -/
def litsCS (ws : List String) : RE := altList (ws.map (fun w => .lit false w.data))

/-- Regex `\s+`. -/
def wsPlus : RE := rePlus isPySpace

/-- A phrase like `Work\s+Experience`: words joined by `\s+`,
case-insensitively. -/
def phraseCI : List String → RE
  | [] => .eps
  | [w] => .lit true w.data
  | w :: rest => .seq (.lit true w.data) (.seq wsPlus (phraseCI rest))

theorem starSplits_sound (p : Char → Bool) (s : Str) :
    ∀ cr ∈ starSplits p s, cr.1 ++ cr.2 = s := by
  intro cr hcr
  simp only [starSplits, List.mem_map, List.mem_reverse, List.mem_range] at hcr
  obtain ⟨k, _, hk⟩ := hcr
  rw [← hk]
  exact List.take_append_drop k s

theorem matchL_sound : ∀ (re : RE) (s : Str), ∀ cr ∈ matchL re s, cr.1 ++ cr.2 = s := by
  intro re
  induction re with
  | cls p =>
    intro s cr hcr
    cases s with
    | nil => simp [matchL] at hcr
    | cons c r =>
      simp only [matchL] at hcr
      split at hcr
      · simp at hcr; simp [hcr]
      · simp at hcr
  | lit ci w =>
    intro s cr hcr
    simp only [matchL] at hcr
    split at hcr
    · simp at hcr
      simp [hcr, List.take_append_drop]
    · simp at hcr
  | seq a b iha ihb =>
    intro s cr hcr
    simp only [matchL, List.mem_flatMap, List.mem_map] at hcr
    obtain ⟨cr1, h1, cr2, h2, heq⟩ := hcr
    have e1 := iha s cr1 h1
    have e2 := ihb cr1.2 cr2 h2
    rw [← heq]
    simp only []
    rw [List.append_assoc, e2, e1]
  | alt a b iha ihb =>
    intro s cr hcr
    simp only [matchL, List.mem_append] at hcr
    rcases hcr with h | h
    · exact iha s cr h
    · exact ihb s cr h
  | star p =>
    intro s cr hcr
    exact starSplits_sound p s cr hcr
  | eps =>
    intro s cr hcr
    simp [matchL] at hcr
    simp [hcr]

/-! ### Searching

`searchFrom` models `re.search`: the leftmost position whose candidate
list is non-empty wins, and the head candidate there is the reported
match.  It returns `(start, consumed, rest)`. -/

def searchFrom (re : RE) : Str → Option (Nat × Str × Str)
  | [] =>
    match matchL re [] with
    | cr :: _ => some (0, cr.1, cr.2)
    | [] => none
  | s@(_ :: s') =>
    match matchL re s with
    | cr :: _ => some (0, cr.1, cr.2)
    | [] => (searchFrom re s').map (fun x => (x.1 + 1, x.2))

/-- `re.search(pattern, s).group(0)`, for patterns without lookaround. -/
def searchPlain (re : RE) (s : Str) : Option Str :=
  (searchFrom re s).map (fun x => x.2.1)

/-! ### Section headers

`identify_sections` wraps each section keyword pattern as
`(?:^|\n\s*|\n\n)(pattern)(?:\s*:|\s*\n)` and runs `re.finditer` with
`re.IGNORECASE` (no `re.MULTILINE`, so `^` is start-of-string only). -/

def hdrPre (atStart : Bool) : RE :=
  let nlWs := RE.seq (.cls (· = '\n')) (.star isPySpace)
  let nlNl := RE.seq (.cls (· = '\n')) (.cls (· = '\n'))
  if atStart then .alt .eps (.alt nlWs nlNl) else .alt nlWs nlNl

def hdrTail : RE :=
  .alt (.seq (.star isPySpace) (.cls (· = ':')))
       (.seq (.star isPySpace) (.cls (· = '\n')))

def hdrRE (atStart : Bool) (body : RE) : RE := .seq (hdrPre atStart) (.seq body hdrTail)

/-- Search for a wrapped section-header pattern anywhere in `s`
(`re.search` semantics, `^` applying only at position 0). -/
def searchHdr (body : RE) (s : Str) : Option (Nat × Str × Str) :=
  match matchL (hdrRE true body) s with
  | cr :: _ => some (0, cr.1, cr.2)
  | [] =>
    match s with
    | [] => none
    | _ :: s' => (searchFrom (hdrRE false body) s').map (fun x => (x.1 + 1, x.2))

/-- One step of `re.finditer` resumed at offset `o` (fuel-bounded; the
fuel `text.length + 1` is enough because every header match consumes at
least one character, and on an empty match Python would advance by one
position, which `max … 1` mirrors). -/
def finditerAux (body : RE) (text : Str) : Nat → Nat → List (Nat × Str × Str)
  | _, 0 => []
  | o, fuel + 1 =>
    let res := if o = 0 then searchHdr body text
               else (searchFrom (hdrRE false body) (text.drop o)).map
                      (fun x => (o + x.1, x.2))
    match res with
    | some m => m :: finditerAux body text (m.1 + max m.2.1.length 1) fuel
    | none => []

/-- All matches of a wrapped section-header pattern: `re.finditer`. -/
def finditerHdr (body : RE) (text : Str) : List (Nat × Str × Str) :=
  finditerAux body text 0 (text.length + 1)

/-! ### The section pattern catalog (source lines 199-212), in dict order. -/

/-- Case-insensitive keyword. -/
def kw (s : String) : RE := .lit true s.data

/-- The `(?:\s+[A-Za-z]+){0,3}` suffix of the summary pattern: greedy,
up to three repetitions. -/
def wordGap : RE := .seq wsPlus (rePlus isAlphaC)

def rep03 (x : RE) : RE := reOpt (.seq x (reOpt (.seq x (reOpt x))))

def summaryRE : RE :=
  .seq (altList [kw "Summary", kw "Profile", kw "About", kw "Objective",
                 phraseCI ["Professional", "Summary"], kw "Resumen", kw "Perfil",
                 kw "Objetivo", phraseCI ["Acerca", "de"]])
       (rep03 wordGap)

def experienceSecRE : RE :=
  altList [kw "Experience", phraseCI ["Work", "Experience"], kw "Employment",
           phraseCI ["Employment", "History"], phraseCI ["Professional", "Experience"],
           kw "Career", kw "Experiencia", phraseCI ["Experiencia", "Laboral"],
           kw "Empleo", phraseCI ["Historial", "de", "Empleo"],
           phraseCI ["Experiencia", "Profesional"], kw "Trayectoria", kw "Trabajo"]

def educationSecRE : RE :=
  altList [kw "Education", phraseCI ["Educational", "Background"], kw "Academic",
           kw "Academics", kw "Qualifications", kw "Degrees", kw "Educación",
           phraseCI ["Formación", "Académica"], kw "Estudios", kw "Títulos"]

def skillsSecRE : RE :=
  altList [kw "Skills", kw "Abilities", kw "Competencies",
           phraseCI ["Technical", "Skills"], phraseCI ["Core", "Competencies"],
           kw "Qualifications", kw "Habilidades", kw "Competencias",
           kw "Capacidades", kw "Aptitudes", kw "Conocimientos"]

def certificationsSecRE : RE :=
  altList [kw "Certifications", kw "Certificates", kw "Credentials",
           kw "Certificaciones", kw "Certificados", kw "Credenciales"]

def languagesSecRE : RE :=
  altList [kw "Languages", phraseCI ["Language", "Skills"], kw "Idiomas",
           phraseCI ["Competencias", "Lingüísticas"]]

def projectsSecRE : RE :=
  altList [kw "Projects", phraseCI ["Key", "Projects"],
           phraseCI ["Significant", "Projects"], phraseCI ["Project", "Experience"],
           kw "Proyectos", phraseCI ["Proyectos", "Clave"],
           phraseCI ["Proyectos", "Significativos"]]

def interestsSecRE : RE :=
  altList [kw "Interests", kw "Hobbies", kw "Activities",
           phraseCI ["Personal", "Interests"], kw "Intereses", kw "Pasatiempos",
           kw "Actividades", phraseCI ["Intereses", "Personales"]]

def referencesSecRE : RE :=
  altList [kw "References", kw "Referees", phraseCI ["Professional", "References"],
           kw "Referencias", kw "Árbitros", phraseCI ["Referencias", "Profesionales"]]

def publicationsSecRE : RE :=
  altList [kw "Publications", phraseCI ["Published", "Works"], kw "Papers",
           kw "Publicaciones", phraseCI ["Trabajos", "Publicados"], kw "Artículos"]

def awardsSecRE : RE :=
  altList [kw "Awards", kw "Honors", kw "Achievements", kw "Recognitions",
           kw "Premios", kw "Honores", kw "Logros", kw "Reconocimientos"]

def volunteeringSecRE : RE :=
  altList [kw "Volunteering", phraseCI ["Volunteer", "Experience"],
           phraseCI ["Community", "Service"], kw "Voluntariado",
           phraseCI ["Experiencia", "de", "Voluntariado"],
           phraseCI ["Servicio", "Comunitario"]]

/-- `section_patterns`, in the insertion order of the source dict. -/
def sectionPatternTable : List (String × RE) :=
  [("summary", summaryRE), ("experience", experienceSecRE),
   ("education", educationSecRE), ("skills", skillsSecRE),
   ("certifications", certificationsSecRE), ("languages", languagesSecRE),
   ("projects", projectsSecRE), ("interests", interestsSecRE),
   ("references", referencesSecRE), ("publications", publicationsSecRE),
   ("awards", awardsSecRE), ("volunteering", volunteeringSecRE)]

/-! ### Sorting boundaries and building the section mapping -/

/-- Python string comparison (code-point lexicographic), strict. -/
def strLT : Str → Str → Bool
  | [], [] => false
  | [], _ :: _ => true
  | _ :: _, [] => false
  | a :: as, b :: bs => a < b || (a = b && strLT as bs)

/-- Strict comparison of `(start_pos, section_type)` tuples, as Python's
`list.sort` compares them (the third tuple component, the matched title,
can only matter on ties in both, which cannot occur: a single pattern's
`finditer` matches have strictly increasing end offsets). -/
def bndLT (a b : Nat × String) : Bool :=
  a.1 < b.1 || (a.1 = b.1 && strLT a.2.data b.2.data)

/-- Stable insertion: place `x` after all earlier elements not strictly
greater, matching Python's stable ascending sort. -/
def insAsc (lt : α → α → Bool) (x : α) : List α → List α
  | [] => [x]
  | y :: ys => if lt x y then x :: y :: ys else y :: insAsc lt x ys

def sortAsc (lt : α → α → Bool) (l : List α) : List α :=
  l.foldl (fun acc x => insAsc lt x acc) []

/-- All `(end_offset_of_match, section_kind)` boundary candidates, sorted
by position (source lines 214-227). -/
def sectionBoundaries (text : Str) : List (Nat × String) :=
  sortAsc bndLT
    (sectionPatternTable.flatMap (fun kp =>
      (finditerHdr kp.2 text).map (fun m => (m.1 + m.2.1.length, kp.1))))

/-- Slice the text between consecutive boundaries and strip each body
(source lines 230-236). -/
def sliceBodies (text : Str) : List (Nat × String) → List (String × Str)
  | [] => []
  | (p, k) :: rest =>
    let e := match rest with
      | (q, _) :: _ => q
      | [] => text.length
    (k, strip (pySlice text p e)) :: sliceBodies text rest

/-- Python dict assignment `d[k] = v`: overwrite in place, else append. -/
def dictUpsert (d : List (String × α)) (k : String) (v : α) : List (String × α) :=
  match d with
  | [] => [(k, v)]
  | kv :: rest => if kv.1 = k then (k, v) :: rest else kv :: dictUpsert rest k v

/-- Python dict lookup. -/
def dictGet (d : List (String × α)) (k : String) : Option α :=
  (d.find? (fun kv => kv.1 = k)).map (fun kv => kv.2)

/-- The section segmenter `identify_sections` (source lines 194-238),
returning the kind-to-body mapping as an insertion-ordered dict. -/
def identify_sections (text : Str) : List (String × Str) :=
  (sliceBodies text (sectionBoundaries text)).foldl
    (fun d kv => dictUpsert d kv.1 kv.2) []

/-! ### The date-range pattern catalog of `extract_work_experiences_v2`
(source lines 275-290), in order.  All are matched with `re.IGNORECASE`,
so the class `[-–—a]` also accepts `A` and `[a-z]*` accepts both cases. -/

def isSepDashCI (c : Char) : Bool :=
  c = '-' || c = '–' || c = '—' || c = 'a' || c = 'A'

/-- The range separator `\s*[-–—a]+\s*`. -/
def sepCI : RE := .seq (.star isPySpace) (.seq (rePlus isSepDashCI) (.star isPySpace))

/-- The regex `\d{4}`. -/
def digit4 : RE :=
  .seq (.cls isDigitC) (.seq (.cls isDigitC) (.seq (.cls isDigitC) (.cls isDigitC)))

def enMonthsFull : List String :=
  ["January", "February", "March", "April", "May", "June", "July", "August",
   "September", "October", "November", "December"]

def esMonthsFull : List String :=
  ["Enero", "Febrero", "Marzo", "Abril", "Mayo", "Junio", "Julio", "Agosto",
   "Septiembre", "Octubre", "Noviembre", "Diciembre"]

def enMonthsAbbr : List String :=
  ["Jan", "Feb", "Mar", "Apr", "May", "Jun", "Jul", "Aug", "Sep", "Oct", "Nov", "Dec"]

def esMonthsAbbr : List String :=
  ["Ene", "Feb", "Mar", "Abr", "May", "Jun", "Jul", "Ago", "Sep", "Oct", "Nov", "Dic"]

/-- `(?:Month|...)\s+\d{4}` for full month names. -/
def monFull (months : List String) : RE := .seq (litsCI months) (.seq wsPlus digit4)

/-- `(?:Mon|...)[a-z]*\s+\d{4}` for abbreviated month names. -/
def monAbbr (months : List String) : RE :=
  .seq (litsCI months) (.seq (.star isAlphaC) (.seq wsPlus digit4))

def datePat1 : RE := .seq (monFull enMonthsFull) (.seq sepCI (monFull enMonthsFull))
def datePat2 : RE := .seq (monFull enMonthsFull) (.seq sepCI (litsCI ["Present", "Current"]))
def datePat3 : RE := .seq (monFull esMonthsFull) (.seq sepCI (monFull esMonthsFull))
def datePat4 : RE :=
  .seq (monFull esMonthsFull) (.seq sepCI (litsCI ["Presente", "Actual", "Actualidad"]))
def datePat5 : RE := .seq (monAbbr enMonthsAbbr) (.seq sepCI (monAbbr enMonthsAbbr))
def datePat6 : RE := .seq (monAbbr enMonthsAbbr) (.seq sepCI (litsCI ["Present", "Current"]))
def datePat7 : RE := .seq (monAbbr esMonthsAbbr) (.seq sepCI (monAbbr esMonthsAbbr))
def datePat8 : RE :=
  .seq (monAbbr esMonthsAbbr) (.seq sepCI (litsCI ["Presente", "Actual", "Actualidad"]))

/-- `(19|20)\d{2}`: a four-digit 19xx/20xx year. -/
def yearNumRE : RE :=
  .seq (.alt (.lit true "19".data) (.lit true "20".data))
       (.seq (.cls isDigitC) (.cls isDigitC))

/-- Second half of the bare-year range pattern. -/
def p9endRE : RE :=
  .alt yearNumRE (litsCI ["Present", "Current", "Presente", "Actual", "Actualidad"])

/-- The bare-year pattern's core, between the `(?<!\d)` and `(?!\d)`
lookarounds: `(19|20)\d{2}\s*[-–—a]+\s*((?:19|20)\d{2}|Present|...)`. -/
def p9core : RE := .seq yearNumRE (.seq sepCI p9endRE)

/-- The trailing `(?!\d)` lookahead on a candidate. -/
def lookaheadOK (cr : Str × Str) : Bool :=
  match cr.2 with
  | [] => true
  | c :: _ => !isDigitC c

/-- Try the bare-year pattern at the current position: the `(?<!\d)`
lookbehind must hold (`prevOK`), and backtracking continues past
candidates rejected by the `(?!\d)` lookahead. -/
def p9here (prevOK : Bool) (s : Str) : Option Str :=
  if prevOK then ((matchL p9core s).find? lookaheadOK).map (fun cr => cr.1)
  else none

def p9searchAux : Bool → Str → Option Str
  | prevOK, [] => p9here prevOK []
  | prevOK, s@(c :: s') =>
    match p9here prevOK s with
    | some d => some d
    | none => p9searchAux (!isDigitC c) s'

/-- `re.search` for the bare-year pattern `(?<!\d)(19|20)\d{2}\s*[-–—a]+\s*(...)(?!\d)`. -/
def p9search (s : Str) : Option Str := p9searchAux true s

/-- The first eight date patterns, in source order (the ninth needs
lookaround and is handled by `p9search`). -/
def datePatternsPlain : List RE :=
  [datePat1, datePat2, datePat3, datePat4, datePat5, datePat6, datePat7, datePat8]

/-- The inner loop of anchor detection (source lines 297-302): the first
date pattern matching the line wins and its `group(0)` is returned. -/
def lineFirstDate (l : Str) : Option Str :=
  match datePatternsPlain.findSome? (fun re => searchPlain re l) with
  | some d => some d
  | none => p9search l

/-! ### `extract_work_experiences_v2` (source lines 240-405) -/

structure JobEntry where
  company : Str
  title : Str
  date : Str
  description : Str
  deriving DecidableEq, Repr

/-- Direct search patterns for the experience/education section bounds
(source lines 249-250). -/
def expHdrBody : RE :=
  altList [kw "Experience", phraseCI ["Work", "Experience"], kw "Employment",
           phraseCI ["Professional", "Experience"], kw "Experiencia", kw "Trayectoria"]

def eduHdrBody : RE :=
  altList [kw "Education", kw "Educational", kw "Academic", kw "Academics",
           kw "Qualifications", kw "Degrees", kw "Educación",
           phraseCI ["Formación", "Académica"]]

/-- Locate the experience section (source lines 245-270): direct regex
search from the experience header to the education header or end of text;
when that yields nothing non-empty, fall back to `identify_sections`;
`none` means the function returns an empty list. -/
def locateExperienceSection (text : Str) : Option Str :=
  let direct : Option Str :=
    match searchHdr expHdrBody text with
    | some m =>
      let st := m.1 + m.2.1.length
      let en := match searchHdr eduHdrBody text with
                | some m2 => m2.1
                | none => text.length
      let s := strip (pySlice text st en)
      if s = [] then none else some s
    | none => none
  match direct with
  | some s => some s
  | none => dictGet (identify_sections text) "experience"

/-- Anchor detection (source lines 295-302): each line contributes at
most one `(line_index, matched_date_text)` pair. -/
def datePositions (lines : List Str) : List (Nat × Str) :=
  lines.enum.filterMap (fun il => (lineFirstDate il.2).map (fun d => (il.1, d)))

def unknownStr : Str := "Unknown".data

def titleKeywords : List String :=
  ["Director", "CIO", "Chief", "Manager", "Lead", "Engineer", "Developer",
   "Architect", "Analyst", "Consultant", "Specialist", "Asesor", "Jefe",
   "Gerente", "Ingeniero"]

/-- Python's substring test `needle in hay` (contiguous, case-sensitive). -/
def containsSub (needle : Str) : Str → Bool
  | [] => litMatch false needle []
  | s@(_ :: t) => litMatch false needle s || containsSub needle t

/-- The description loop (source lines 374-383): skip leading blank lines
until something has been kept, then keep every line whose stripped form is
neither the company nor the title. -/
def descLoop (company title : Str) : List Str → List Str → List Str
  | acc, [] => acc
  | acc, l :: ls =>
    if strip l = [] && acc.isEmpty then descLoop company title acc ls
    else if strip l ≠ company && strip l ≠ title then
      descLoop company title (acc ++ [l]) ls
    else descLoop company title acc ls

/-- Build one job entry from the anchor at `startIdx` with the entry range
ending at `endIdx` (source lines 311-391). -/
def mkJobEntry (lines : List Str) (startIdx endIdx : Nat) (dateText : Str) : JobEntry :=
  let jobLines := (lines.take endIdx).drop startIdx
  -- company: the stripped previous line if it starts with an uppercase letter
  let company1 : Str :=
    if startIdx > 0 then
      let cl := strip (lines.getD (startIdx - 1) [])
      match cl with
      | c :: _ => if isUpperC c then cl else unknownStr
      | [] => unknownStr
    else unknownStr
  -- otherwise, a capitalized short line among the first two entry lines
  let company : Str :=
    if company1 = unknownStr then
      match (jobLines.take 2).find? (fun l =>
          match strip l with
          | c :: _ => isUpperC c && wsTokens (strip l) ≤ 5
          | [] => false) with
      | some l => strip l
      | none => unknownStr
    else company1
  -- title candidates (source lines 342-371)
  let title : Str :=
    if startIdx > 0 then
      let prevStrip := strip (lines.getD (startIdx - 1) [])
      let cands1 : List Str := if company ≠ prevStrip then [prevStrip] else []
      let cands2 : List Str :=
        if startIdx > 1 && company = prevStrip then
          [strip (lines.getD (startIdx - 2) [])]
        else []
      let cands3 : List Str :=
        match jobLines.find? (fun l => l ≠ company && !containsSub dateText l) with
        | some l => [strip l]
        | none => []
      let cands := cands1 ++ cands2 ++ cands3
      match cands.find? (fun c => titleKeywords.any (fun k => containsSub k.data c)) with
      | some c => c
      | none =>
        match cands with
        | c :: _ => c
        | [] => unknownStr
    else unknownStr
  let description := strip (joinNL (descLoop company title [] jobLines))
  ⟨company, title, dateText, description⟩

/-- `re.findall(r'(19|20)\d{2}', s)` — the pattern has a capture group, so
findall returns the group matches, i.e. the century prefixes 19/20 only. -/
def yearPfxAll : Str → List Nat
  | c1 :: c2 :: c3 :: c4 :: rest =>
    if ((c1 = '1' && c2 = '9') || (c1 = '2' && c2 = '0'))
        && isDigitC c3 && isDigitC c4 then
      (if c1 = '1' then 19 else 20) :: yearPfxAll rest
    else yearPfxAll (c2 :: c3 :: c4 :: rest)
  | _ => []

/-- The sort key `extract_year` (source lines 394-400). -/
def extract_year (ds : Str) : Nat :=
  if ds = [] || ds = unknownStr then 0
  else
    match yearPfxAll ds with
    | [] => 0
    | l => l.foldl Nat.max 0

/-- Stable descending insertion by `extract_year` of the date: equal keys
keep input order, matching Python's stable `sort(key=..., reverse=True)`. -/
def insJobDesc (x : JobEntry) : List JobEntry → List JobEntry
  | [] => [x]
  | y :: ys =>
    if extract_year x.date > extract_year y.date then x :: y :: ys
    else y :: insJobDesc x ys

def sortJobsDesc (l : List JobEntry) : List JobEntry :=
  l.foldl (fun acc x => insJobDesc x acc) []

/-- The work-experience extractor `extract_work_experiences_v2`. -/
def extract_work_experiences_v2 (text : Str) : List JobEntry :=
  match locateExperienceSection text with
  | none => []
  | some sec =>
    let lines := splitLines sec
    let dps := datePositions lines
    let entries := dps.enum.map (fun jp =>
      let endIdx := match dps.get? (jp.1 + 1) with
        | some q => q.1
        | none => lines.length
      mkJobEntry lines jp.2.1 endIdx jp.2.2)
    sortJobsDesc entries

/-! ### `extract_name` (source lines 767-776) -/

/-- Scan the first three lines; the first non-empty line with at most 4
whitespace-separated tokens and stripped length above 3 is the name. -/
def extract_name (text : Str) : Option Str :=
  ((splitLines text).take 3).findSome? (fun l =>
    if l ≠ [] && wsTokens (strip l) ≤ 4 && (strip l).length > 3 then some (strip l)
    else none)

/-! ### `extract_skills` (source lines 811-832)

Each pattern is `\b(?:tok1|tok2|...)\b` run with `re.findall` and
`re.IGNORECASE`; all matches land in a Python `set`.  The set is modelled
as an insertion-ordered duplicate-free list: the claims below use only
its membership and cardinality, which the source determines (the order of
`list(skills)` is unspecified in Python). -/

def skillGroup1 : List String :=
  ["Python", "Java", "JavaScript", "TypeScript", "C++", "C#", "PHP", "Ruby",
   "Swift", "Kotlin", "Go", "Rust", "SQL", "HTML", "CSS", "R", "Matlab",
   "Scala", "Perl", "Shell", "Bash"]

def skillGroup2 : List String :=
  ["React", "Angular", "Vue", "Node.js", "Express", "Django", "Flask",
   "Spring", "Laravel", "Rails", "TensorFlow", "PyTorch", "Scikit-learn", "Pandas"]

def skillGroup3 : List String :=
  ["Git", "Docker", "Kubernetes", "AWS", "Azure", "GCP", "Jenkins", "Jira",
   "Confluence", "Tableau", "PowerBI", "Excel", "Word", "PowerPoint",
   "Photoshop", "Illustrator"]

def skillGroup4 : List String :=
  ["Leadership", "Communication", "Teamwork", "Problem-solving",
   "Critical thinking", "Time management", "Project management", "Agile",
   "Scrum", "Liderazgo", "Comunicación", "Trabajo en equipo",
   "Resolución de problemas", "Gestión de tiempo", "Gestión de proyectos"]

def skillGroup5 : List String :=
  ["ISO 27001", "ISO 27000", "Information Security", "Cybersecurity",
   "Security", "SOX", "Seguridad Informática", "Ciberseguridad"]

def skillGroups : List (List String) :=
  [skillGroup1, skillGroup2, skillGroup3, skillGroup4, skillGroup5]

/-- The `\b` assertion between a previous character (none at the start of
the text) and the rest of the text. -/
def bAt (prev : Option Char) (s : Str) : Bool :=
  (match prev with | some c => isWordC c | none => false)
    != (match s with | c :: _ => isWordC c | [] => false)

theorem litMatch_length_le (ci : Bool) :
    ∀ (w s : Str), litMatch ci w s = true → w.length ≤ s.length := by
  intro w
  induction w with
  | nil => intro s _; simp
  | cons a w' ih =>
    intro s h
    cases s with
    | nil => simp [litMatch] at h
    | cons x s' =>
      simp only [litMatch, Bool.and_eq_true] at h
      simpa using ih s' h.2

/-- Try the skill alternatives, in written order, at the current position;
a hit must also satisfy the trailing `\b`. -/
def tryAlts (alts : List Str) (s : Str) : Option (Str × Str) :=
  alts.findSome? (fun w =>
    if (!w.isEmpty) && litMatch true w s
        && ((match (s.take w.length).getLast? with
             | some ch => isWordC ch
             | none => false)
            != (match s.drop w.length with | ch :: _ => isWordC ch | [] => false))
    then some (s.take w.length, s.drop w.length)
    else none)

theorem tryAlts_shrink (alts : List Str) (s : Str) (p : Str × Str)
    (h : tryAlts alts s = some p) : p.2.length < s.length := by
  obtain ⟨w, _, hw⟩ := List.exists_of_findSome?_eq_some h
  split at hw
  · rename_i hc
    simp only [Bool.and_eq_true, Bool.not_eq_eq_eq_not, Bool.not_true] at hc
    cases hw
    have hle := litMatch_length_le true w s hc.1.2
    have hw1 : 1 ≤ w.length := by
      cases w with
      | nil => exact absurd hc.1.1 (by simp)
      | cons _ _ => simp
    simp only [List.length_drop]
    omega
  · simp at hw

/-- `re.findall` for one skill pattern: non-overlapping left-to-right
scan, resuming after each match.  Structural recursion on a fuel that
decreases once per step; since every step strictly shortens the string
(`tryAlts_shrink`), fuel `length + 1` can never run out. -/
def scanSkillGo (alts : List Str) : Nat → Option Char → Str → List Str
  | 0, _, _ => []
  | _ + 1, _, [] => []
  | fuel + 1, prev, c :: s' =>
    if bAt prev (c :: s') then
      match tryAlts alts (c :: s') with
      | some p => p.1 :: scanSkillGo alts fuel p.1.getLast? p.2
      | none => scanSkillGo alts fuel (some c) s'
    else scanSkillGo alts fuel (some c) s'

def scanSkillPat (alts : List Str) (s : Str) : List Str :=
  scanSkillGo alts (s.length + 1) none s

/-- Insert into the modelled set, keeping first-insertion order. -/
def setInsert (acc : List Str) (x : Str) : List Str :=
  if acc.contains x then acc else acc ++ [x]

/-- The skills extractor `extract_skills`. -/
def extract_skills (text : Str) : List Str :=
  skillGroups.foldl
    (fun acc g => (scanSkillPat (g.map String.data) text).foldl setInsert acc) []

/-! ### `extract_education` (source lines 834-883) -/

structure EduEntry where
  degree : Str
  institution : Str
  date : Str
  deriving DecidableEq, Repr

/-- Head candidate of `\s*\n` at the current position (for `re.split` on
`\n\s*\n` after its first `\n` was seen). -/
def paraMatchTail (t : Str) : Option Str :=
  match matchL (RE.seq (.star isPySpace) (.cls (· = '\n'))) t with
  | cr :: _ => some cr.2
  | [] => none

theorem paraMatchTail_le (t r : Str) (h : paraMatchTail t = some r) :
    r.length ≤ t.length := by
  unfold paraMatchTail at h
  cases hm : matchL (RE.seq (.star isPySpace) (.cls (· = '\n'))) t with
  | nil => rw [hm] at h; simp at h
  | cons cr rest =>
    rw [hm] at h
    cases h
    have := matchL_sound (RE.seq (.star isPySpace) (.cls (· = '\n'))) t cr
      (by rw [hm]; exact List.mem_cons_self _ _)
    calc cr.2.length ≤ cr.1.length + cr.2.length := by omega
    _ = t.length := by rw [← List.length_append, this]

/-- `re.split(r'\n\s*\n', s)`: leftmost, greedy matches separate the
paragraphs.  Structural recursion on a fuel that decreases once per step;
since every step strictly shortens the string (`paraMatchTail_le`), fuel
`length + 1` can never run out. -/
def splitParasGo : Nat → Str → Str → List Str
  | 0, acc, _ => [acc.reverse]
  | _ + 1, acc, [] => [acc.reverse]
  | fuel + 1, acc, c :: rest =>
    if c = '\n' then
      match paraMatchTail rest with
      | some r => acc.reverse :: splitParasGo fuel [] r
      | none => splitParasGo fuel (c :: acc) rest
    else splitParasGo fuel (c :: acc) rest

def splitParas (s : Str) : List Str := splitParasGo (s.length + 1) [] s

/-- Degree-pattern suffix
`(?:\sof\s(?:...names...)|(?:\sen\s[A-Za-z\s]+))?`. -/
def degTail (names : List String) : RE :=
  reOpt (.alt
    (.seq (.cls isPySpace) (.seq (kw "of") (.seq (.cls isPySpace) (litsCI names))))
    (.seq (.cls isPySpace) (.seq (kw "en")
      (.seq (.cls isPySpace) (rePlus (fun c => isAlphaC c || isPySpace c))))))

def deg1 : RE :=
  .seq (litsCI ["Bachelor", "BA", "BS", "B.A.", "B.S.", "Licenciatura", "Grado",
                "Licenciado", "Graduado"])
       (degTail ["Science", "Arts", "Business", "Engineering"])

def deg2 : RE :=
  .seq (litsCI ["Master", "MA", "MS", "M.A.", "M.S.", "MBA", "M.B.A.", "Máster",
                "Maestría"])
       (degTail ["Science", "Arts", "Business", "Engineering"])

def deg3 : RE :=
  .seq (litsCI ["Doctor", "PhD", "Ph.D.", "Doctorate", "Doctorado"])
       (degTail ["Science", "Arts", "Philosophy", "Engineering"])

def degreePatterns : List RE := [deg1, deg2, deg3]

/-- `([A-Z][a-zA-Z\s&]+(?:University|...))`, matched case-sensitively. -/
def institutionRE : RE :=
  .seq (.cls isUpperC)
    (.seq (rePlus (fun c => isAlphaC c || isPySpace c || c = '&'))
      (litsCS ["University", "College", "School", "Institute", "Universidad",
               "Escuela", "Instituto"]))

/-- Case-sensitive separator `\s*[-–—a]+\s*` (the education date pattern
is compiled without `re.IGNORECASE`). -/
def sepCS : RE :=
  .seq (.star isPySpace)
    (.seq (rePlus (fun c => c = '-' || c = '–' || c = '—' || c = 'a'))
      (.star isPySpace))

def yearNumCS : RE :=
  .seq (.alt (.lit false "19".data) (.lit false "20".data))
       (.seq (.cls isDigitC) (.cls isDigitC))

/-- `((?:19|20)\d{2}|[Pp]resent|[Cc]urrent|[Aa]ctual)`. -/
def eduEndRE : RE :=
  altList [yearNumCS,
    .seq (.cls (fun c => c = 'P' || c = 'p')) (.lit false "resent".data),
    .seq (.cls (fun c => c = 'C' || c = 'c')) (.lit false "urrent".data),
    .seq (.cls (fun c => c = 'A' || c = 'a')) (.lit false "ctual".data)]

/-- Match the education date pattern at the current position, returning
the two capture groups `(19|20)` and the second component, in exactly the
backtracking order of the engine. -/
def eduDateHere (s : Str) : Option (Str × Str) :=
  (matchL (.alt (.lit false "19".data) (.lit false "20".data)) s).findSome? (fun g1 =>
    (matchL (.seq (.cls isDigitC) (.cls isDigitC)) g1.2).findSome? (fun d2 =>
      (matchL sepCS d2.2).findSome? (fun sp =>
        (matchL eduEndRE sp.2).findSome? (fun g2 => some (g1.1, g2.1)))))

/-- Leftmost match of the education date pattern, as the capture pair. -/
def eduDateSearch : Str → Option (Str × Str)
  | [] => eduDateHere []
  | s@(_ :: s') =>
    match eduDateHere s with
    | some g => some g
    | none => eduDateSearch s'

/-- The education extractor `extract_education`: it re-runs
`identify_sections` on its input and parses only the education body found
there; paragraphs yield an entry only when a degree or institution
matched; the date field is rebuilt as `f-string` of the two findall
groups. -/
def extract_education (text : Str) : List EduEntry :=
  let eduSec := (dictGet (identify_sections text) "education").getD []
  if eduSec = [] then []
  else
    (splitParas eduSec).filterMap (fun para =>
      if strip para = [] then none
      else
        let degree := degreePatterns.findSome? (fun re => searchPlain re para)
        let inst := searchPlain institutionRE para
        let date := (eduDateSearch para).map (fun g => g.1 ++ ('-' :: g.2))
        if degree.isSome || inst.isSome then
          some ⟨degree.getD "Unspecified Degree".data,
                inst.getD "Unspecified Institution".data,
                date.getD "Unknown Date".data⟩
        else none)

/-! ### Concrete inputs used by the claims -/

/-- The exact input of the spec's work-experience example (section 8). -/
def janeText : Str :=
  "Jane Smith\nAcme Corp\nSenior Engineer\nJanuary 2019 - Present\nBuilt systems.\n\nBeta Inc\nAnalyst\nJune 2015 - December 2018\nAnalyzed data.".data

/-- The same input with an experience-section header prepended, which is
what the extractor actually needs before it reports any job entry. -/
def janeTextHdr : Str := ("Experience:\n".data) ++ janeText

/-- A text whose two date ranges share the century prefix but differ in
the actual years. -/
def c2Text : Str := "Experience:\nA\n2005 - 2006\nB\n2019 - 2020".data

/-- The education paragraph of the spec's example (section 8). -/
def eduPara : Str := "Master of Science in Computing, Tech University, 2015-2017".data

/-- The same paragraph preceded by an education-section header. -/
def eduParaHdr : Str := ("Education:\n".data) ++ eduPara

/-- A text containing the same skill token in two letter cases. -/
def pySkillsText : Str := "Python python".data

/-- Numeric value of an ASCII digit. -/
def digitVal (c : Char) : Nat := c.toNat - '0'.toNat

/-- All full 4-digit 19xx/20xx years occurring in a string (left-to-right,
non-overlapping scan). -/
def year4All : Str → List Nat
  | c1 :: c2 :: c3 :: c4 :: rest =>
    if ((c1 = '1' && c2 = '9') || (c1 = '2' && c2 = '0'))
        && isDigitC c3 && isDigitC c4 then
      (1000 * digitVal c1 + 100 * digitVal c2 + 10 * digitVal c3 + digitVal c4)
        :: year4All rest
    else year4All (c2 :: c3 :: c4 :: rest)
  | _ => []

/-- Following the spec's words (section 4.4, step 5): the maximum 4-digit
(19xx/20xx) year found within a date string, 0 when there is none.  This
is the ordering key the spec claims; it is compared against the source's
`extract_year`. -/
def spec_max_year (ds : Str) : Nat := (year4All ds).foldl Nat.max 0

/-! ### Claim C1 -/

set_option maxRecDepth 100000 in
/-- C1, counterexample: on the spec example's exact input,
`extract_work_experiences_v2` returns no entries at all — the text has no
experience-section header, the direct search and the section segmenter
both fail, and the function returns the empty list. -/
theorem c1_counterexample : extract_work_experiences_v2 janeText = [] := by decide

set_option maxRecDepth 100000 in
/-- C1, amended: prepending an experience-section header `Experience:` to
the example input, `extract_work_experiences_v2` returns exactly two
entries, the one dated `January 2019 - Present` before the one dated
`June 2015 - December 2018`, and both titles differ from the placeholder
`Unknown`. -/
theorem c1_theorem :
    (extract_work_experiences_v2 janeTextHdr).map JobEntry.date =
      ["January 2019 - Present".data, "June 2015 - December 2018".data]
    ∧ (extract_work_experiences_v2 janeTextHdr).all
        (fun e => e.title != unknownStr) = true := by decide

/-! ### Claim C2 -/

set_option maxRecDepth 100000 in
/-- C2: the returned sequence is not sorted by descending maximum 4-digit
year.  On `c2Text` the entry whose date's maximum year is 2006 precedes
the entry whose maximum year is 2020, because the sort key
`extract_year` calls `re.findall(r'(19|20)\d{2}', ...)` whose capture
group reduces every year to its century prefix 19/20 — here both keys are
20, so the stable sort keeps document order. -/
theorem c2_theorem :
    (extract_work_experiences_v2 c2Text).map JobEntry.date =
      ["2005 - 2006".data, "2019 - 2020".data]
    ∧ extract_year "2005 - 2006".data = 20
    ∧ extract_year "2019 - 2020".data = 20
    ∧ spec_max_year "2005 - 2006".data < spec_max_year "2019 - 2020".data := by
  decide

/-! ### Claim C3 -/

set_option maxRecDepth 100000 in
/-- C3: on the bare education paragraph the extractor returns no entry at
all (it re-segments its input and finds no education header inside), and
even with a header prepended the date field is `20-2017`, not
`2015-2017`, because the f-string rebuilds the date from the findall
capture groups and the first group only captures the century prefix. -/
theorem c3_theorem :
    extract_education eduPara = []
    ∧ extract_education eduParaHdr =
        [⟨"Master of Science".data, "Tech University".data, "20-2017".data⟩] := by
  decide

/-! ### Claim C4 -/

set_option maxRecDepth 100000 in
/-- C4, counterexample: on a text containing `Python` and `python` the
skill set holds two entries for that skill (one per exact casing), not
one — the Python `set` deduplicates by exact string, so case variants do
not collapse. -/
theorem c4_counterexample :
    ((extract_skills pySkillsText).filter
      (fun s => s.map Char.toLower = "python".data)).length = 2 := by decide

/-! ### Engine lemmas: extension of matches to larger strings, and
search soundness.  These support the universal claims (C5, C9). -/

theorem litMatch_append (ci : Bool) :
    ∀ (w s t : Str), litMatch ci w s = true → litMatch ci w (s ++ t) = true := by
  intro w
  induction w with
  | nil => intro s t _; simp [litMatch]
  | cons c w' ih =>
    intro s t h
    cases s with
    | nil => simp [litMatch] at h
    | cons x s' =>
      simp only [litMatch, Bool.and_eq_true] at h ⊢
      exact ⟨h.1, ih s' t h.2⟩

theorem takeWhile_length_append (p : Char → Bool) (s t : Str) :
    (s.takeWhile p).length ≤ ((s ++ t).takeWhile p).length := by
  induction s with
  | nil => simp
  | cons c s' ih =>
    simp only [List.cons_append, List.takeWhile]
    cases p c with
    | false => simp
    | true => simpa using ih

theorem takeWhile_length_le (p : Char → Bool) (s : Str) :
    (s.takeWhile p).length ≤ s.length := by
  induction s with
  | nil => simp
  | cons c s' ih =>
    simp only [List.takeWhile]
    cases p c with
    | false => simp
    | true => simpa using Nat.succ_le_succ ih

/-- A successful candidate at some position survives appending more text
on the right: the same consumed prefix with the extension glued onto the
rest. -/
theorem matchL_append (re : RE) :
    ∀ (s t : Str), ∀ cr ∈ matchL re s, (cr.1, cr.2 ++ t) ∈ matchL re (s ++ t) := by
  induction re with
  | cls p =>
    intro s t cr hcr
    cases s with
    | nil => simp [matchL] at hcr
    | cons c r =>
      simp only [matchL] at hcr ⊢
      split at hcr
      · simp at hcr
        subst hcr
        simp [*]
      · simp at hcr
  | lit ci w =>
    intro s t cr hcr
    simp only [matchL] at hcr ⊢
    split at hcr
    · rename_i hlm
      have hle := litMatch_length_le ci w s hlm
      simp only [List.mem_singleton] at hcr
      subst hcr
      rw [if_pos (litMatch_append ci w s t hlm)]
      simp [List.take_append_of_le_length hle, List.drop_append_of_le_length hle]
    · simp at hcr
  | seq a b iha ihb =>
    intro s t cr hcr
    simp only [matchL, List.mem_flatMap, List.mem_map] at hcr ⊢
    obtain ⟨cr1, h1, cr2, h2, heq⟩ := hcr
    refine ⟨(cr1.1, cr1.2 ++ t), iha s t cr1 h1, (cr2.1, cr2.2 ++ t), ihb cr1.2 t cr2 h2, ?_⟩
    rw [← heq]
  | alt a b iha ihb =>
    intro s t cr hcr
    simp only [matchL, List.mem_append] at hcr ⊢
    rcases hcr with h | h
    · exact Or.inl (iha s t cr h)
    · exact Or.inr (ihb s t cr h)
  | star p =>
    intro s t cr hcr
    simp only [matchL, starSplits, List.mem_map, List.mem_reverse, List.mem_range] at hcr ⊢
    obtain ⟨k, hk, hkk⟩ := hcr
    have hk1 : k ≤ (s.takeWhile p).length := Nat.lt_succ_iff.mp hk
    have hks : k ≤ s.length := le_trans hk1 (takeWhile_length_le p s)
    refine ⟨k, Nat.lt_succ_of_le (le_trans hk1 (takeWhile_length_append p s t)), ?_⟩
    rw [← hkk]
    simp [List.take_append_of_le_length hks, List.drop_append_of_le_length hks]
  | eps =>
    intro s t cr hcr
    simp only [matchL, List.mem_singleton] at hcr ⊢
    subst hcr
    rfl

/-- Forward soundness of `searchFrom`: the reported match is a real head
candidate at the reported position. -/
theorem searchFrom_spec (re : RE) :
    ∀ (s : Str) (p : Nat) (c r : Str), searchFrom re s = some (p, c, r) →
      p ≤ s.length ∧ (c, r) ∈ matchL re (s.drop p) := by
  intro s
  induction s with
  | nil =>
    intro p c r h
    simp only [searchFrom] at h
    cases hm : matchL re [] with
    | nil => rw [hm] at h; simp at h
    | cons cr rest =>
      rw [hm] at h
      simp only [Option.some.injEq] at h
      obtain ⟨rfl, rfl, rfl⟩ := Prod.mk.injEq .. ▸ h
      exact ⟨Nat.zero_le _, by rw [List.drop_nil, hm]; exact List.mem_cons_self _ _⟩
  | cons x s' ih =>
    intro p c r h
    simp only [searchFrom] at h
    cases hm : matchL re (x :: s') with
    | cons cr rest =>
      rw [hm] at h
      simp only [Option.some.injEq] at h
      obtain ⟨rfl, rfl, rfl⟩ := Prod.mk.injEq .. ▸ h
      exact ⟨Nat.zero_le _, by rw [List.drop_zero, hm]; exact List.mem_cons_self _ _⟩
    | nil =>
      rw [hm] at h
      cases hs : searchFrom re s' with
      | none => rw [hs] at h; simp at h
      | some q =>
        rw [hs] at h
        simp only [Option.map_some', Option.some.injEq] at h
        obtain ⟨h1, h2⟩ := Prod.mk.injEq .. ▸ h
        obtain ⟨hple, hmem⟩ := ih q.1 q.2.1 q.2.2 (by rw [hs])
        subst h1
        have h2' : q.2 = (c, r) := h2
        rw [← h2']
        constructor
        · simpa using Nat.succ_le_succ hple
        · simpa using hmem

/-- Completeness of `searchFrom`: a candidate anywhere makes the search
succeed. -/
theorem searchFrom_isSome_of (re : RE) :
    ∀ (s : Str) (p : Nat), matchL re (s.drop p) ≠ [] → (searchFrom re s).isSome := by
  intro s
  induction s with
  | nil =>
    intro p h
    rw [List.drop_nil] at h
    simp only [searchFrom]
    cases hm : matchL re [] with
    | nil => exact absurd hm h
    | cons cr rest => simp
  | cons x s' ih =>
    intro p h
    simp only [searchFrom]
    cases hm : matchL re (x :: s') with
    | cons cr rest => simp
    | nil =>
      cases p with
      | zero => rw [List.drop_zero] at h; exact absurd hm h
      | succ q =>
        rw [List.drop_succ_cons] at h
        have := ih q h
        cases hs : searchFrom re s' with
        | none => rw [hs] at this; simp at this
        | some m => simp

/-- Inversion for sequencing. -/
theorem matchL_seq_inv (a b : RE) (s : Str) (cr : Str × Str)
    (h : cr ∈ matchL (.seq a b) s) :
    ∃ c1 r1 c2, (c1, r1) ∈ matchL a s ∧ (c2, cr.2) ∈ matchL b r1 ∧ cr.1 = c1 ++ c2 := by
  simp only [matchL, List.mem_flatMap, List.mem_map] at h
  obtain ⟨cr1, h1, cr2, h2, heq⟩ := h
  subst heq
  exact ⟨cr1.1, cr1.2, cr2.1, h1, by simpa using h2, rfl⟩

/-- Inversion for alternation. -/
theorem matchL_alt_inv (a b : RE) (s : Str) (cr : Str × Str)
    (h : cr ∈ matchL (.alt a b) s) : cr ∈ matchL a s ∨ cr ∈ matchL b s := by
  simpa [matchL] using h

/-- Inversion for a character class. -/
theorem matchL_cls_inv (p : Char → Bool) (s : Str) (cr : Str × Str)
    (h : cr ∈ matchL (.cls p) s) : ∃ c, cr.1 = [c] ∧ p c = true := by
  cases s with
  | nil => simp [matchL] at h
  | cons x s' =>
    simp only [matchL] at h
    split at h
    · simp at h
      exact ⟨x, by simp [h], by assumption⟩
    · simp at h

/-! ### Line-structure lemmas

How the lines of a slice of the text relate to the lines of the whole
text: every line of a middle piece is a line of the whole with material
glued only at the two ends, and the glued material's boundary characters
are the neighbouring characters of the piece. -/

theorem getLastD_irrel (l : List α) (a b : α) (h : l ≠ []) :
    l.getLastD a = l.getLastD b := by
  cases l with
  | nil => exact absurd rfl h
  | cons x l' => rfl

theorem headD_cons_tail (l : List (List α)) (h : l ≠ []) :
    l.headD [] :: l.tail = l := by
  cases l with
  | nil => exact absurd rfl h
  | cons x l' => rfl

theorem splitLines_cons_nl (r : Str) : splitLines ('\n' :: r) = [] :: splitLines r := by
  simp [splitLines]

theorem splitLines_cons_ch (c : Char) (r : Str) (h : ¬ c = '\n') :
    splitLines (c :: r) =
      match splitLines r with
      | l :: ls => (c :: l) :: ls
      | [] => [[c]] := by
  simp [splitLines, h]

theorem splitLines_append (u v : Str) :
    splitLines (u ++ v) =
      (splitLines u).dropLast ++
        ((splitLines u).getLastD [] ++ (splitLines v).headD []) :: (splitLines v).tail := by
  induction u with
  | nil =>
    show splitLines v = [] ++ ([] ++ (splitLines v).headD []) :: (splitLines v).tail
    rw [List.nil_append, List.nil_append, headD_cons_tail _ (splitLines_ne_nil v)]
  | cons c u' ih =>
    by_cases hc : c = '\n'
    · subst hc
      rw [List.cons_append, splitLines_cons_nl, splitLines_cons_nl, ih]
      cases hL : splitLines u' with
      | nil => exact absurd hL (splitLines_ne_nil u')
      | cons l0 ls0 => simp
    · rw [List.cons_append, splitLines_cons_ch c _ hc, splitLines_cons_ch c _ hc, ih]
      cases hL : splitLines u' with
      | nil => exact absurd hL (splitLines_ne_nil u')
      | cons l0 ls0 =>
        cases ls0 with
        | nil => simp
        | cons l1 ls1 =>
          simp [List.dropLast_cons₂, List.getLastD_cons]

theorem splitLines_singleton : ∀ (a l : Str), splitLines a = [l] → a = l := by
  intro a
  induction a with
  | nil =>
    intro l h
    simp only [splitLines, List.cons.injEq] at h
    exact h.1
  | cons c a' ih =>
    intro l h
    by_cases hc : c = '\n'
    · subst hc
      rw [splitLines_cons_nl] at h
      simp only [List.cons.injEq] at h
      exact absurd h.2 (splitLines_ne_nil a')
    · rw [splitLines_cons_ch c _ hc] at h
      cases hL : splitLines a' with
      | nil => exact absurd hL (splitLines_ne_nil a')
      | cons l0 ls0 =>
        rw [hL] at h
        simp only [List.cons.injEq] at h
        obtain ⟨h1, h2⟩ := h
        subst h2
        rw [ih l0 hL]
        exact h1

/-- The last line of a string is one of its suffixes. -/
theorem lastLine_suffix (a : Str) :
    ∃ t, t ++ (splitLines a).getLastD [] = a := by
  induction a with
  | nil => exact ⟨[], rfl⟩
  | cons c a' ih =>
    obtain ⟨t, ht⟩ := ih
    by_cases hc : c = '\n'
    · subst hc
      rw [splitLines_cons_nl]
      refine ⟨'\n' :: t, ?_⟩
      rw [List.cons_append, List.getLastD_cons, ht]
    · rw [splitLines_cons_ch c _ hc]
      cases hL : splitLines a' with
      | nil => exact absurd hL (splitLines_ne_nil a')
      | cons l0 ls0 =>
        rw [hL] at ht
        cases ls0 with
        | nil =>
          have ha' : a' = l0 := splitLines_singleton a' l0 hL
          subst ha'
          exact ⟨[], by simp⟩
        | cons l1 ls1 =>
          refine ⟨c :: t, ?_⟩
          simp only [List.getLastD_cons] at ht ⊢
          simpa using congrArg (fun x => c :: x) ht

/-- The first line of a string starts the string. -/
theorem headLine_fragment (b : Str) : ∃ t, (splitLines b).headD [] ++ t = b := by
  induction b with
  | nil => exact ⟨[], rfl⟩
  | cons c b' ih =>
    by_cases hc : c = '\n'
    · subst hc
      rw [splitLines_cons_nl]
      exact ⟨'\n' :: b', rfl⟩
    · rw [splitLines_cons_ch c _ hc]
      cases hL : splitLines b' with
      | nil => exact absurd hL (splitLines_ne_nil b')
      | cons l0 ls0 =>
        obtain ⟨t, ht⟩ := ih
        rw [hL] at ht
        exact ⟨t, by simpa using congrArg (fun x => c :: x) ht⟩

theorem mem_dropLast_or_getLastD :
    ∀ (L : List Str) (l : Str), l ∈ L → l ∈ L.dropLast ∨ l = L.getLastD [] := by
  intro L
  induction L with
  | nil => intro l h; simp at h
  | cons x rest ih =>
    intro l h
    cases rest with
    | nil =>
      simp at h
      exact Or.inr (by simpa using h)
    | cons y rest' =>
      rcases List.mem_cons.mp h with h1 | h2
      · exact Or.inl (by simp [List.dropLast_cons₂, h1])
      · rcases ih l h2 with h3 | h4
        · exact Or.inl (by simp [List.dropLast_cons₂]; exact Or.inr h3)
        · refine Or.inr ?_
          rw [h4]
          simp [List.getLastD_cons]

theorem mem_head_or_tail (L : List Str) (l : Str) (h : l ∈ L) :
    l = L.headD [] ∨ l ∈ L.tail := by
  cases L with
  | nil => simp at h
  | cons x rest =>
    rcases List.mem_cons.mp h with h1 | h2
    · exact Or.inl (by simpa using h1)
    · exact Or.inr (by simpa using h2)

/-- Every line of `m` occurs inside a line of `m ++ b`, extended only on
the right, and only when it is the last line of `m`. -/
theorem lines_in_append_right (m b : Str) :
    ∀ l ∈ splitLines m, ∃ lw ∈ splitLines (m ++ b), ∃ y, lw = l ++ y ∧
      (y = [] ∨ (y.head? = b.head? ∧ ∃ t, t ++ l = m)) := by
  intro l hl
  rw [splitLines_append]
  rcases mem_dropLast_or_getLastD _ l hl with hmem | hlast
  · exact ⟨l, List.mem_append_left _ hmem, [], by simp⟩
  · refine ⟨l ++ (splitLines b).headD [], ?_, (splitLines b).headD [], rfl, ?_⟩
    · rw [← hlast]
      exact List.mem_append_right _ (List.mem_cons_self _ _)
    · cases hh : (splitLines b).headD [] with
      | nil => exact Or.inl rfl
      | cons x xs =>
        refine Or.inr ⟨?_, ?_⟩
        · obtain ⟨t, ht⟩ := headLine_fragment b
          rw [hh] at ht
          rw [← ht]
          simp
        · obtain ⟨t, ht⟩ := lastLine_suffix m
          exact ⟨t, by rw [hlast]; exact ht⟩

/-- Every line of `w` occurs inside a line of `a ++ w`, extended only on
the left; a non-empty extension ends with the last character of `a`. -/
theorem lines_in_append_left (a w : Str) :
    ∀ l ∈ splitLines w, ∃ lw ∈ splitLines (a ++ w), ∃ x, lw = x ++ l ∧
      (x = [] ∨ x.getLast? = a.getLast?) := by
  intro l hl
  rw [splitLines_append]
  rcases mem_head_or_tail _ l hl with hhead | htail
  · refine ⟨(splitLines a).getLastD [] ++ l, ?_, (splitLines a).getLastD [], ?_, ?_⟩
    · rw [hhead]
      exact List.mem_append_right _ (List.mem_cons_self _ _)
    · rfl
    · cases hx : (splitLines a).getLastD [] with
      | nil => exact Or.inl rfl
      | cons z zs =>
        refine Or.inr ?_
        obtain ⟨t, ht⟩ := lastLine_suffix a
        rw [hx] at ht
        rw [← ht, List.getLast?_append]
        cases hzz : (z :: zs).getLast? with
        | none => simp at hzz
        | some u => simp [hzz]
  · exact ⟨l, List.mem_append_right _ (List.mem_cons_of_mem _ htail), [],
           by simp, Or.inl rfl⟩

/-- Every line of a middle piece `m` of `a ++ m ++ b` sits inside a line
of the whole, with glue only at the two ends and the glue's boundary
characters those of `a` and `b`. -/
theorem lines_in_middle (a m b : Str) :
    ∀ l ∈ splitLines m, ∃ lw ∈ splitLines (a ++ m ++ b), ∃ x y,
      lw = x ++ l ++ y ∧
      (x = [] ∨ x.getLast? = a.getLast?) ∧
      (y = [] ∨ (y.head? = b.head? ∧ ∃ t, t ++ l = m)) := by
  intro l hl
  obtain ⟨l1, hl1, y, hy, hyc⟩ := lines_in_append_right m b l hl
  obtain ⟨lw, hlw, x, hx, hxc⟩ := lines_in_append_left a (m ++ b) l1 hl1
  refine ⟨lw, by rwa [List.append_assoc], x, y, ?_, hxc, hyc⟩
  rw [hx, hy, List.append_assoc]

/-! ### Strip lemmas: `strip` removes only whitespace at the two ends,
and what remains neither starts nor ends with whitespace. -/

theorem dropWhile_head_false (p : Char → Bool) :
    ∀ (l : Str) (x : Char) (xs : Str), l.dropWhile p = x :: xs → p x = false := by
  intro l
  induction l with
  | nil => intro x xs h; simp [List.dropWhile] at h
  | cons c l' ih =>
    intro x xs h
    rw [List.dropWhile_cons] at h
    split at h
    · exact ih x xs h
    · cases h
      rename_i hpc
      simpa using hpc

theorem mem_takeWhile_sat (p : Char → Bool) :
    ∀ (l : Str) (x : Char), x ∈ l.takeWhile p → p x = true := by
  intro l
  induction l with
  | nil => intro x h; simp [List.takeWhile] at h
  | cons c l' ih =>
    intro x h
    rw [List.takeWhile_cons] at h
    split at h
    · rcases List.mem_cons.mp h with h1 | h2
      · subst h1; assumption
      · exact ih x h2
    · simp at h

theorem rstrip_decomp (u : Str) :
    ∃ b, u = rstrip u ++ b ∧ ∀ c ∈ b, isPySpace c = true := by
  refine ⟨(u.reverse.takeWhile isPySpace).reverse, ?_, ?_⟩
  · conv_lhs => rw [← List.reverse_reverse u,
      ← List.takeWhile_append_dropWhile isPySpace u.reverse]
    rw [List.reverse_append]
    rfl
  · intro c hc
    exact mem_takeWhile_sat isPySpace u.reverse c (List.mem_reverse.mp hc)

theorem strip_decomp (s : Str) :
    ∃ a b, s = a ++ strip s ++ b ∧ (∀ c ∈ a, isPySpace c = true)
      ∧ (∀ c ∈ b, isPySpace c = true) := by
  obtain ⟨b, hb, hbs⟩ := rstrip_decomp (s.dropWhile isPySpace)
  refine ⟨s.takeWhile isPySpace, b, ?_, ?_, hbs⟩
  · conv_lhs => rw [← List.takeWhile_append_dropWhile (p := isPySpace) (l := s)]
    rw [List.append_assoc] at *
    rw [hb]
    rfl
  · intro c hc
    exact mem_takeWhile_sat isPySpace s c hc

theorem strip_head_not_space (s : Str) :
    ∀ c, (strip s).head? = some c → isPySpace c = false := by
  intro c hc
  obtain ⟨b, hb, _⟩ := rstrip_decomp (s.dropWhile isPySpace)
  cases hm : strip s with
  | nil => rw [hm] at hc; simp at hc
  | cons x xs =>
    rw [hm] at hc
    simp only [List.head?_cons, Option.some.injEq] at hc
    have hdw : s.dropWhile isPySpace = x :: (xs ++ b) := by
      have hr : rstrip (s.dropWhile isPySpace) = x :: xs := by
        rw [show rstrip (s.dropWhile isPySpace) = strip s from rfl, hm]
      rw [hb, hr]
      simp
    rw [← hc]
    exact dropWhile_head_false isPySpace s x (xs ++ b) hdw

theorem getLast?_reverse_head (l : Str) : l.reverse.getLast? = l.head? := by
  cases l with
  | nil => rfl
  | cons x xs =>
    rw [List.reverse_cons, List.getLast?_append]
    simp

theorem strip_getLast_not_space (s : Str) :
    ∀ c, (strip s).getLast? = some c → isPySpace c = false := by
  intro c hc
  have hrw : strip s = ((s.dropWhile isPySpace).reverse.dropWhile isPySpace).reverse := rfl
  rw [hrw, getLast?_reverse_head] at hc
  cases hd : (s.dropWhile isPySpace).reverse.dropWhile isPySpace with
  | nil => rw [hd] at hc; simp at hc
  | cons x xs =>
    rw [hd] at hc
    simp only [List.head?_cons, Option.some.injEq] at hc
    rw [← hc]
    exact dropWhile_head_false isPySpace _ x xs hd

/-! ### Transfer of a date-pattern match from a piece to the whole line -/

theorem findSome?_isSome_of {α β : Type} (f : α → Option β) :
    ∀ (l : List α) (a : α), a ∈ l → (f a).isSome → (l.findSome? f).isSome := by
  intro l
  induction l with
  | nil => intro a h; simp at h
  | cons x xs ih =>
    intro a h hf
    rw [List.findSome?_cons]
    rcases List.mem_cons.mp h with h1 | h2
    · subst h1
      cases hfx : f a with
      | none => rw [hfx] at hf; simp at hf
      | some b => simp
    · cases hfx : f x with
      | none => exact ih a h2 hf
      | some b => simp

theorem find?_isSome_of {α : Type} (p : α → Bool) :
    ∀ (l : List α) (a : α), a ∈ l → p a = true → (l.find? p).isSome := by
  intro l
  induction l with
  | nil => intro a h; simp at h
  | cons x xs ih =>
    intro a h hp
    rcases List.mem_cons.mp h with h1 | h2
    · subst h1
      rw [List.find?_cons_of_pos _ hp]
      simp
    · cases hpx : p x with
      | true =>
        rw [List.find?_cons_of_pos _ hpx]
        simp
      | false =>
        rw [List.find?_cons_of_neg _ (by simp [hpx])]
        exact ih a h2 hp

theorem matchL_litsCI_spec (ws : List String) :
    ∀ (s : Str) (cr : Str × Str), cr ∈ matchL (litsCI ws) s →
      ∃ w ∈ ws, litMatch true w.data s = true ∧ cr.1 = s.take w.data.length := by
  induction ws with
  | nil =>
    intro s cr h
    have : matchL (litsCI []) s = [] := by
      cases s <;> simp [litsCI, altList, reFail, matchL]
    rw [this] at h
    simp at h
  | cons w rest ih =>
    intro s cr h
    have hrw : litsCI (w :: rest) = .alt (.lit true w.data) (litsCI rest) := rfl
    rw [hrw] at h
    rcases matchL_alt_inv _ _ _ _ h with h1 | h2
    · simp only [matchL] at h1
      split at h1
      · simp at h1
        exact ⟨w, List.mem_cons_self _ _, by assumption, by simp [h1]⟩
      · simp at h1
    · obtain ⟨w', hw', hl, hc⟩ := ih s cr h2
      exact ⟨w', List.mem_cons_of_mem _ hw', hl, hc⟩

theorem litMatch_last (ci : Bool) :
    ∀ (w s : Str), litMatch ci w s = true → w ≠ [] →
      ∃ cw cs, w.getLast? = some cw ∧ (s.take w.length).getLast? = some cs ∧
        chEq ci cw cs = true := by
  intro w
  induction w with
  | nil => intro s _ h; exact absurd rfl h
  | cons c w' ih =>
    intro s hm _
    cases s with
    | nil => simp [litMatch] at hm
    | cons x s' =>
      simp only [litMatch, Bool.and_eq_true] at hm
      cases hw' : w' with
      | nil =>
        subst hw'
        exact ⟨c, x, rfl, by simp, hm.1⟩
      | cons c2 w'' =>
        subst hw'
        obtain ⟨cw, cs, h1, h2, h3⟩ := ih s' hm.2 (by simp)
        refine ⟨cw, cs, ?_, ?_, h3⟩
        · rw [← h1, List.getLast?_cons_cons]
        · rw [show List.take (c :: c2 :: w'').length (x :: s') =
                x :: List.take (c2 :: w'').length s' from rfl]
          have h2' : (List.take (c2 :: w'').length s').getLast? = some cs := h2
          cases htk : List.take (c2 :: w'').length s' with
          | nil =>
            rw [htk] at h2'
            simp at h2'
          | cons t ts =>
            rw [List.getLast?_cons_cons]
            rw [htk] at h2'
            exact h2'

/-- Any candidate of the bare-year core ends in a character other than a
colon (a digit or a letter of `Present`/`Current`/`Presente`/`Actual`/
`Actualidad`). -/
theorem p9core_last (s : Str) (cr : Str × Str) (h : cr ∈ matchL p9core s) :
    ∃ ch, cr.1.getLast? = some ch ∧ ¬ ch = ':' := by
  obtain ⟨c1, r1, c23, hm1, hm23, hcr⟩ := matchL_seq_inv _ _ _ _ h
  obtain ⟨c2, r2, c3, hm2, hm3, hc23⟩ := matchL_seq_inv _ _ _ _ hm23
  replace hc23 : c23 = c2 ++ c3 := hc23
  replace hm3 : (c3, cr.2) ∈ matchL p9endRE r2 := hm3
  have hend : ∃ ch, c3.getLast? = some ch ∧ ¬ ch = ':' := by
    rcases matchL_alt_inv _ _ _ _ hm3 with hy | hw
    · -- a second 19xx/20xx year: ends with a digit
      obtain ⟨ca, ra, cb, _, hmb, hc3⟩ := matchL_seq_inv _ _ _ _ hy
      replace hc3 : c3 = ca ++ cb := hc3
      obtain ⟨cc, rc, cd, _, hmd, hcb⟩ := matchL_seq_inv _ _ _ _ hmb
      replace hcb : cb = cc ++ cd := hcb
      obtain ⟨d, hd1, hd2⟩ := matchL_cls_inv _ _ _ hmd
      replace hd1 : cd = [d] := hd1
      refine ⟨d, ?_, ?_⟩
      · rw [hc3, hcb, hd1, ← List.append_assoc, List.getLast?_append]
        simp
      · intro hcol
        subst hcol
        simp [isDigitC] at hd2
    · -- a literal word: ends with a letter
      obtain ⟨w, hw1, hw2, hw3⟩ := matchL_litsCI_spec _ _ _ hw
      replace hw3 : c3 = r2.take w.data.length := hw3
      have hwcase : w = "Present" ∨ w = "Current" ∨ w = "Presente" ∨ w = "Actual"
          ∨ w = "Actualidad" := by simpa using hw1
      have hwne : w.data ≠ [] := by
        rcases hwcase with rfl | rfl | rfl | rfl | rfl <;> simp
      obtain ⟨cw, cs, hl1, hl2, hl3⟩ := litMatch_last true w.data r2 hw2 hwne
      refine ⟨cs, by rw [hw3]; exact hl2, ?_⟩
      intro hcol
      subst hcol
      simp only [chEq, ciEq, if_pos rfl, decide_eq_true_eq] at hl3
      rcases hwcase with rfl | rfl | rfl | rfl | rfl <;>
      · have hv := Option.some.inj hl1
        rw [← hv] at hl3
        revert hl3
        decide
  obtain ⟨ch, hch1, hch2⟩ := hend
  refine ⟨ch, ?_, hch2⟩
  have hc3ne : c3 ≠ [] := by
    intro hnil
    rw [hnil] at hch1
    simp at hch1
  rw [hcr, hc23, ← List.append_assoc, List.getLast?_append]
  rw [hch1]
  simp

/-- Candidates and search positions survive extending the line on the
right and on the left. -/
theorem searchPlain_extend (re : RE) (l x y : Str)
    (h : (searchPlain re l).isSome) : (searchPlain re (x ++ l ++ y)).isSome := by
  rw [searchPlain, Option.isSome_map'] at h ⊢
  cases hs : searchFrom re l with
  | none => rw [hs] at h; simp at h
  | some m =>
    obtain ⟨hple, hmem⟩ := searchFrom_spec re l m.1 m.2.1 m.2.2 (by rw [hs])
    have hcand := matchL_append re (l.drop m.1) y _ hmem
    have hdrop : (x ++ l ++ y).drop (x.length + m.1) = l.drop m.1 ++ y := by
      rw [List.append_assoc, ← List.drop_drop, List.drop_left]
      exact List.drop_append_of_le_length hple
    have hne : matchL re ((x ++ l ++ y).drop (x.length + m.1)) ≠ [] := by
      rw [hdrop]
      intro hnil
      rw [hnil] at hcand
      simp at hcand
    exact searchFrom_isSome_of re (x ++ l ++ y) (x.length + m.1) hne

theorem p9searchAux_spec :
    ∀ (s : Str) (prevOK : Bool) (d : Str), p9searchAux prevOK s = some d →
      ∃ x y, s = x ++ y ∧
        (match x.getLast? with
         | none => prevOK = true
         | some ch => isDigitC ch = false) ∧
        ∃ cr ∈ matchL p9core y, lookaheadOK cr = true ∧ cr.1 = d := by
  intro s
  induction s with
  | nil =>
    intro prevOK d h
    simp only [p9searchAux, p9here] at h
    split at h
    · cases hf : (matchL p9core []).find? lookaheadOK with
      | none => rw [hf] at h; simp at h
      | some cr =>
        rw [hf] at h
        simp only [Option.map_some', Option.some.injEq] at h
        exact ⟨[], [], rfl, by simpa using by assumption,
               cr, List.mem_of_find?_eq_some hf, List.find?_some hf, h⟩
    · simp at h
  | cons c s' ih =>
    intro prevOK d h
    simp only [p9searchAux] at h
    cases hh : p9here prevOK (c :: s') with
    | some d0 =>
      rw [hh] at h
      simp only [Option.some.injEq] at h
      subst h
      simp only [p9here] at hh
      split at hh
      · cases hf : (matchL p9core (c :: s')).find? lookaheadOK with
        | none => rw [hf] at hh; simp at hh
        | some cr =>
          rw [hf] at hh
          simp only [Option.map_some', Option.some.injEq] at hh
          exact ⟨[], c :: s', rfl, by simpa using by assumption,
                 cr, List.mem_of_find?_eq_some hf, List.find?_some hf, hh⟩
      · simp at hh
    | none =>
      rw [hh] at h
      have h' : p9searchAux (!isDigitC c) s' = some d := h
      obtain ⟨x', y', hxy, hcond, cr, hmem, hlook, hd⟩ := ih (!isDigitC c) d h'
      refine ⟨c :: x', y', by simp [hxy], ?_, cr, hmem, hlook, hd⟩
      cases hx' : x' with
      | nil =>
        subst hx'
        simp only [List.getLast?_nil] at hcond
        simp only [List.getLast?_singleton]
        simpa using hcond
      | cons z zs =>
        rw [hx'] at hcond
        rw [List.getLast?_cons_cons]
        cases hu : (z :: zs).getLast? with
        | none => simp at hu
        | some u =>
          rw [hu] at hcond
          exact hcond

theorem p9searchAux_complete :
    ∀ (x y : Str) (prevOK : Bool),
      (match x.getLast? with
       | none => prevOK = true
       | some ch => isDigitC ch = false) →
      (∃ cr ∈ matchL p9core y, lookaheadOK cr = true) →
      (p9searchAux prevOK (x ++ y)).isSome := by
  intro x
  induction x with
  | nil =>
    intro y prevOK hcond hex
    obtain ⟨cr, hmem, hlook⟩ := hex
    simp only [List.getLast?_nil] at hcond
    have hfind : ((matchL p9core y).find? lookaheadOK).isSome :=
      find?_isSome_of lookaheadOK _ cr hmem hlook
    cases y with
    | nil =>
      simp only [List.nil_append, p9searchAux, p9here, hcond, if_pos rfl]
      simpa using hfind
    | cons c y' =>
      simp only [List.nil_append, p9searchAux, p9here, hcond, if_pos rfl]
      cases hf : (matchL p9core (c :: y')).find? lookaheadOK with
      | none => rw [hf] at hfind; simp at hfind
      | some cr' => simp [hf]
  | cons a x' ih =>
    intro y prevOK hcond hex
    rw [List.cons_append]
    have hcond' :
        (match x'.getLast? with
         | none => (!isDigitC a) = true
         | some ch => isDigitC ch = false) := by
      cases hx' : x' with
      | nil =>
        rw [hx'] at hcond
        simp only [List.getLast?_singleton] at hcond
        simpa using hcond
      | cons z zs =>
        rw [hx'] at hcond
        rw [List.getLast?_cons_cons] at hcond
        exact hcond
    simp only [p9searchAux]
    cases hh : p9here prevOK (a :: (x' ++ y)) with
    | some d => simp
    | none => exact ih y (!isDigitC a) hcond' hex

/-- If some date pattern matches a line piece `l`, then some date pattern
matches `x ++ l ++ y`, provided the characters adjacent to `l` are safe:
`x` must not end in a digit (for the `(?<!\d)` lookbehind) and `y` must
not begin with one (for the `(?!\d)` lookahead) — unless `l` ends with a
colon, in which case no bare-year match can reach `l`'s right edge at
all. -/
theorem lineFirstDate_extend (l x y : Str)
    (hx : ∀ ch, x.getLast? = some ch → isDigitC ch = false)
    (hy : (∀ ch, y.head? = some ch → isDigitC ch = false) ∨ l.getLast? = some ':')
    (h : (lineFirstDate l).isSome) : (lineFirstDate (x ++ l ++ y)).isSome := by
  cases hfs : datePatternsPlain.findSome? (fun re => searchPlain re l) with
  | some d =>
    obtain ⟨re, hre, hsp⟩ := List.exists_of_findSome?_eq_some hfs
    have hsp2 : (searchPlain re (x ++ l ++ y)).isSome :=
      searchPlain_extend re l x y (by rw [hsp]; rfl)
    have hfs2 : ((datePatternsPlain.findSome?
        (fun re => searchPlain re (x ++ l ++ y)))).isSome :=
      findSome?_isSome_of _ _ re hre hsp2
    rw [lineFirstDate]
    cases h2 : datePatternsPlain.findSome? (fun re => searchPlain re (x ++ l ++ y)) with
    | some d2 => simp
    | none => rw [h2] at hfs2; simp at hfs2
  | none =>
    have hp : (p9search l).isSome := by
      rw [lineFirstDate, hfs] at h
      exact h
    cases hps : p9search l with
    | none => rw [hps] at hp; simp at hp
    | some d =>
      obtain ⟨x', y', hxy, hcond, cr, hmem, hlook, hd⟩ := p9searchAux_spec l true d hps
      obtain ⟨cra, crb⟩ := cr
      have hmem2 : (cra, crb ++ y) ∈ matchL p9core (y' ++ y) :=
        matchL_append p9core y' y (cra, crb) hmem
      have hlook2 : lookaheadOK (cra, crb ++ y) = true := by
        cases hc2 : crb with
        | cons c0 rest =>
          rw [hc2] at hlook
          simpa [lookaheadOK] using hlook
        | nil =>
          rcases hy with hyL | hyR
          · cases hcy : y with
            | nil => simp [lookaheadOK]
            | cons cy ys =>
              simp only [lookaheadOK, List.nil_append]
              simpa using hyL cy (by rw [hcy]; rfl)
          · exfalso
            obtain ⟨ch, hch, hchne⟩ := p9core_last y' (cra, crb) hmem
            have hsound := matchL_sound p9core y' (cra, crb) hmem
            rw [hc2] at hsound
            simp only [List.append_nil] at hsound
            have hyg : y'.getLast? = some ch := by
              rw [← hsound]
              exact hch
            have hlg : l.getLast? = some ch := by
              rw [hxy, List.getLast?_append, hyg]
              rfl
            rw [hyR] at hlg
            exact hchne (Option.some.inj hlg).symm
      have hcondnew :
          (match (x ++ x').getLast? with
           | none => (true : Bool) = true
           | some ch => isDigitC ch = false) := by
        rw [List.getLast?_append]
        cases hgx' : x'.getLast? with
        | some ch =>
          rw [hgx'] at hcond
          exact hcond
        | none =>
          rw [hgx'] at hcond
          show (match Option.or none x.getLast? with
                | none => (true : Bool) = true
                | some ch => isDigitC ch = false)
          cases hgx : x.getLast? with
          | none => rfl
          | some ch => exact hx ch hgx
      have hps2 : (p9searchAux true ((x ++ x') ++ (y' ++ y))).isSome :=
        p9searchAux_complete (x ++ x') (y' ++ y) true hcondnew
          ⟨(cra, crb ++ y), hmem2, hlook2⟩
      have hassoc : (x ++ x') ++ (y' ++ y) = x ++ l ++ y := by
        rw [hxy]
        simp [List.append_assoc]
      rw [hassoc] at hps2
      rw [lineFirstDate]
      cases h2 : datePatternsPlain.findSome? (fun re => searchPlain re (x ++ l ++ y)) with
      | some d2 => simp
      | none => exact hps2

/-! ### Locating the experience section only cuts the text at safe places -/

theorem space_not_digit : ∀ ch, isPySpace ch = true → isDigitC ch = false := by
  intro ch h
  simp only [isPySpace, Bool.or_eq_true, decide_eq_true_eq] at h
  rcases h with ((((h | h) | h) | h) | h) | h <;> subst h <;> decide

theorem cons_getLast_some (c : Char) (t : Str) : ∃ u, (c :: t).getLast? = some u := by
  induction t generalizing c with
  | nil => exact ⟨c, rfl⟩
  | cons d t' ih =>
    obtain ⟨u, hu⟩ := ih d
    exact ⟨u, by rw [List.getLast?_cons_cons]; exact hu⟩

theorem lineFirstDate_nil : lineFirstDate [] = none := by decide

theorem take_append_exact (P X : Str) (k : Nat) :
    (P ++ X).take (P.length + k) = P ++ X.take k := by
  induction P with
  | nil => simp
  | cons p ps ih =>
    simp only [List.cons_append, List.length_cons]
    rw [Nat.succ_add, List.take_succ_cons, ih]

theorem slice_decomp (s : Str) (a b : Nat) (hab : a ≤ b) :
    s = s.take a ++ pySlice s a b ++ s.drop b := by
  have h1 : s.take a = (s.take b).take a := by
    rw [List.take_take, Nat.min_eq_left hab]
  have h2 : s.take b = s.take a ++ pySlice s a b := by
    rw [h1]
    exact (List.take_append_drop a (s.take b)).symm
  calc s = s.take b ++ s.drop b := (List.take_append_drop b s).symm
    _ = s.take a ++ pySlice s a b ++ s.drop b := by rw [h2]

theorem pySlice_ne_lt (s : Str) (a b : Nat) (h : pySlice s a b ≠ []) : a < b := by
  by_contra hab
  push_neg at hab
  apply h
  unfold pySlice
  exact List.drop_eq_nil_of_le (le_trans (List.length_take_le b s) hab)

/-- The segment between two safe cut points, stripped: its lines carry no
date match if the whole text's lines don't.  `a` must not end in a digit
and either `b` starts safely or the piece ends in a colon. -/
theorem section_lines_none (text a m b : Str) (hdec : text = a ++ m ++ b)
    (hA : ∀ ch, a.getLast? = some ch → isDigitC ch = false)
    (hB : (∀ ch, b.head? = some ch → isDigitC ch = false) ∨ m.getLast? = some ':')
    (hall : ∀ lw ∈ splitLines text, lineFirstDate lw = none) :
    ∀ l ∈ splitLines m, lineFirstDate l = none := by
  intro l hl
  by_contra hne
  cases hlc : l with
  | nil =>
    rw [hlc] at hne
    exact hne lineFirstDate_nil
  | cons c0 t0 =>
    subst hlc
    have hsome : (lineFirstDate (c0 :: t0)).isSome := Option.ne_none_iff_isSome.mp hne
    obtain ⟨lw, hlw, x, y, hlweq, hxc, hyc⟩ := lines_in_middle a m b (c0 :: t0) hl
    have hx : ∀ ch, x.getLast? = some ch → isDigitC ch = false := by
      intro ch hch
      rcases hxc with rfl | hxe
      · simp at hch
      · exact hA ch (by rw [← hxe]; exact hch)
    have hy : (∀ ch, y.head? = some ch → isDigitC ch = false)
        ∨ (c0 :: t0).getLast? = some ':' := by
      rcases hyc with rfl | ⟨hyh, t, htl⟩
      · exact Or.inl (by intro ch hch; simp at hch)
      · rcases hB with hBL | hBR
        · exact Or.inl (fun ch hch => hBL ch (by rw [← hyh]; exact hch))
        · obtain ⟨u, hu⟩ := cons_getLast_some c0 t0
          have hm : m.getLast? = some u := by
            rw [← htl, List.getLast?_append, hu]
            rfl
          rw [hBR] at hm
          exact Or.inr (by rw [hu, ← Option.some.inj hm])
    have hext := lineFirstDate_extend (c0 :: t0) x y hx hy hsome
    rw [← hlweq] at hext
    have hlw' : lw ∈ splitLines text := by rw [hdec]; exact hlw
    rw [hall lw hlw'] at hext
    simp at hext

theorem head?_append_left (u v : Str) (h : u ≠ []) : (u ++ v).head? = u.head? := by
  cases u with
  | nil => exact absurd rfl h
  | cons x xs => rfl

/-- A wrapped header match always ends with the colon or newline consumed
by its `(?:\s*:|\s*\n)` tail. -/
theorem hdrTail_last (s : Str) (cr : Str × Str) (h : cr ∈ matchL hdrTail s) :
    ∃ ch, cr.1.getLast? = some ch ∧ (ch = ':' ∨ ch = '\n') := by
  rcases matchL_alt_inv _ _ _ _ h with h1 | h1
  all_goals
    obtain ⟨c1, r1, c2, _, hm2, hc⟩ := matchL_seq_inv _ _ _ _ h1
    replace hc : cr.1 = c1 ++ c2 := hc
    obtain ⟨ch, hch1, hch2⟩ := matchL_cls_inv _ _ _ hm2
    replace hch1 : c2 = [ch] := hch1
    simp only [decide_eq_true_eq] at hch2
  · exact ⟨ch, by rw [hc, hch1, List.getLast?_append]; rfl, Or.inl hch2⟩
  · exact ⟨ch, by rw [hc, hch1, List.getLast?_append]; rfl, Or.inr hch2⟩

theorem hdrRE_last (atStart : Bool) (body : RE) (s : Str) (cr : Str × Str)
    (h : cr ∈ matchL (hdrRE atStart body) s) :
    ∃ ch, cr.1.getLast? = some ch ∧ (ch = ':' ∨ ch = '\n') := by
  obtain ⟨c1, r1, c23, _, hm23, hc⟩ := matchL_seq_inv _ _ _ _ h
  replace hc : cr.1 = c1 ++ c23 := hc
  obtain ⟨c2, r2, c3, _, hm3, hc23⟩ := matchL_seq_inv _ _ _ _ hm23
  replace hc23 : c23 = c2 ++ c3 := hc23
  replace hm3 : (c3, cr.2) ∈ matchL hdrTail r2 := hm3
  obtain ⟨ch, hch, hd⟩ := hdrTail_last r2 (c3, cr.2) hm3
  replace hch : c3.getLast? = some ch := hch
  refine ⟨ch, ?_, hd⟩
  rw [hc, hc23, List.getLast?_append, List.getLast?_append, hch]
  rfl

/-- When a wrapped header pattern matches away from position 0, its match
starts with the newline of `(?:\n\s*|\n\n)`. -/
theorem hdrRE_false_head (body : RE) (s : Str) (cr : Str × Str)
    (h : cr ∈ matchL (hdrRE false body) s) : cr.1.head? = some '\n' := by
  obtain ⟨c1, r1, c23, hm1, _, hc⟩ := matchL_seq_inv _ _ _ _ h
  replace hc : cr.1 = c1 ++ c23 := hc
  have hpre : (c1, r1) ∈ matchL
      (RE.alt (RE.seq (.cls (fun c => c = '\n')) (.star isPySpace))
              (RE.seq (.cls (fun c => c = '\n')) (.cls (fun c => c = '\n')))) s := hm1
  have hhd : c1.head? = some '\n' := by
    rcases matchL_alt_inv _ _ _ _ hpre with h1 | h1
    all_goals
      obtain ⟨ca, ra, cb, hma, _, hca⟩ := matchL_seq_inv _ _ _ _ h1
      replace hca : c1 = ca ++ cb := hca
      obtain ⟨ch, hch1, hch2⟩ := matchL_cls_inv _ _ _ hma
      replace hch1 : ca = [ch] := hch1
      simp only [decide_eq_true_eq] at hch2
      subst hch2
      rw [hca, hch1]
      rfl
  rw [hc, head?_append_left _ _ (by intro hn; rw [hn] at hhd; simp at hhd)]
  exact hhd

/-- Full specification of `searchHdr`: position bound, decomposition of
the text around the match, the final character of the match, and the
starting character when the match is not at position 0. -/
theorem searchHdr_spec (body : RE) (s : Str) (p : Nat) (c r : Str)
    (h : searchHdr body s = some (p, c, r)) :
    p ≤ s.length ∧ s = s.take p ++ c ++ r ∧
    (∃ ch, c.getLast? = some ch ∧ (ch = ':' ∨ ch = '\n')) ∧
    (p = 0 ∨ c.head? = some '\n') := by
  rw [searchHdr.eq_def] at h
  cases hm : matchL (hdrRE true body) s with
  | cons cr0 rest =>
    rw [hm] at h
    simp only [Option.some.injEq] at h
    obtain ⟨rfl, rfl, rfl⟩ := Prod.mk.injEq .. ▸ h
    have hmem : cr0 ∈ matchL (hdrRE true body) s := by
      rw [hm]; exact List.mem_cons_self _ _
    have hsd := matchL_sound _ _ _ hmem
    exact ⟨Nat.zero_le _, by simpa using hsd.symm,
           hdrRE_last true body s cr0 hmem, Or.inl rfl⟩
  | nil =>
    rw [hm] at h
    cases s with
    | nil => simp at h
    | cons c0 s' =>
      have h' : (searchFrom (hdrRE false body) s').map (fun x => (x.1 + 1, x.2))
          = some (p, c, r) := h
      cases hs : searchFrom (hdrRE false body) s' with
      | none => rw [hs] at h'; simp at h'
      | some q =>
        rw [hs] at h'
        simp only [Option.map_some', Option.some.injEq] at h'
        obtain ⟨hq1, hq2⟩ := Prod.mk.injEq .. ▸ h'
        obtain ⟨hple, hmem⟩ := searchFrom_spec _ s' q.1 q.2.1 q.2.2 hs
        have hq2' : q.2 = (c, r) := hq2
        subst hq1
        have hsd := matchL_sound _ _ _ hmem
        rw [hq2'] at hmem hsd
        refine ⟨by simpa using Nat.succ_le_succ hple, ?_, ?_, ?_⟩
        · show c0 :: s' = (c0 :: s').take (q.1 + 1) ++ c ++ r
          rw [show (c0 :: s').take (q.1 + 1) = c0 :: s'.take q.1 from rfl]
          simp only [List.cons_append, List.cons.injEq, true_and]
          rw [List.append_assoc]
          conv_lhs => rw [← List.take_append_drop q.1 s']
          rw [← hsd]
        · exact hdrRE_last false body _ (c, r) hmem
        · exact Or.inr (hdrRE_false_head body _ (c, r) hmem)

theorem finditerAux_spec (body : RE) (text : Str) :
    ∀ (fuel o : Nat), ∀ m ∈ finditerAux body text o fuel,
      text = text.take m.1 ++ m.2.1 ++ m.2.2 ∧
      (∃ ch, m.2.1.getLast? = some ch ∧ (ch = ':' ∨ ch = '\n')) := by
  intro fuel
  induction fuel with
  | zero =>
    intro o m hm
    rw [show finditerAux body text o 0 = [] from rfl] at hm
    exact absurd hm (List.not_mem_nil m)
  | succ f ih =>
    intro o m hm
    by_cases ho : o = 0
    · subst ho
      simp only [finditerAux, if_pos rfl] at hm
      cases hsh : searchHdr body text with
      | none => rw [hsh] at hm; exact absurd hm (List.not_mem_nil m)
      | some q =>
        rw [hsh] at hm
        replace hm : m ∈ q :: finditerAux body text (q.1 + max q.2.1.length 1) f := hm
        rcases List.mem_cons.mp hm with rfl | hm'
        · obtain ⟨_, hdec, hlast, _⟩ :=
            searchHdr_spec body text m.1 m.2.1 m.2.2 (by rw [hsh])
          exact ⟨hdec, hlast⟩
        · exact ih _ m hm'
    · simp only [finditerAux, if_neg ho] at hm
      cases hsf : searchFrom (hdrRE false body) (text.drop o) with
      | none => rw [hsf] at hm; exact absurd hm (List.not_mem_nil m)
      | some q =>
        rw [hsf] at hm
        replace hm : m ∈ (o + q.1, q.2) ::
            finditerAux body text ((o + q.1) + max q.2.1.length 1) f := hm
        rcases List.mem_cons.mp hm with rfl | hm'
        · obtain ⟨hple, hmem⟩ := searchFrom_spec _ _ q.1 q.2.1 q.2.2 hsf
          have hsd := matchL_sound _ _ _ hmem
          have hdd : (text.drop o).drop q.1 = text.drop (o + q.1) := by
            rw [List.drop_drop, Nat.add_comm]
          refine ⟨?_, hdrRE_last false body _ _ hmem⟩
          show text = text.take (o + q.1) ++ q.2.1 ++ q.2.2
          rw [List.append_assoc]
          conv_lhs => rw [← List.take_append_drop (o + q.1) text]
          rw [← hdd, ← hsd]
        · exact ih _ m hm'

theorem take_append_len (P X : Str) (k p : Nat) (hp : P.length = p) :
    (P ++ X).take (p + k) = P ++ X.take k := by
  rw [← hp]
  exact take_append_exact P X k

theorem mem_insAsc {α : Type} (lt : α → α → Bool) (x y : α) :
    ∀ (l : List α), y ∈ insAsc lt x l → y = x ∨ y ∈ l := by
  intro l
  induction l with
  | nil => intro h; simpa [insAsc] using h
  | cons z zs ih =>
    intro h
    rw [insAsc] at h
    split at h
    · rcases List.mem_cons.mp h with h1 | h2
      · exact Or.inl h1
      · exact Or.inr h2
    · rcases List.mem_cons.mp h with h1 | h2
      · exact Or.inr (by rw [h1]; exact List.mem_cons_self _ _)
      · rcases ih h2 with h3 | h4
        · exact Or.inl h3
        · exact Or.inr (List.mem_cons_of_mem _ h4)

theorem mem_sortAsc_aux {α : Type} (lt : α → α → Bool) (y : α) :
    ∀ (l acc : List α), y ∈ l.foldl (fun acc x => insAsc lt x acc) acc →
      y ∈ acc ∨ y ∈ l := by
  intro l
  induction l with
  | nil => intro acc h; exact Or.inl h
  | cons z zs ih =>
    intro acc h
    rcases ih (insAsc lt z acc) h with h1 | h2
    · rcases mem_insAsc lt z y acc h1 with h3 | h4
      · exact Or.inr (by rw [h3]; exact List.mem_cons_self _ _)
      · exact Or.inl h4
    · exact Or.inr (List.mem_cons_of_mem _ h2)

theorem mem_sortAsc {α : Type} (lt : α → α → Bool) (l : List α) (y : α)
    (h : y ∈ sortAsc lt l) : y ∈ l := by
  rcases mem_sortAsc_aux lt y l [] h with h1 | h2
  · simp at h1
  · exact h2

/-- Every section boundary's offset is a safe cut point: it lies within
the text, and the character just before it is the colon or newline that
ended the header match. -/
theorem sectionBoundaries_spec (text : Str) :
    ∀ pk ∈ sectionBoundaries text,
      pk.1 ≤ text.length ∧
      (∃ ch, (text.take pk.1).getLast? = some ch ∧ (ch = ':' ∨ ch = '\n')) := by
  intro pk hpk
  have hpk' := mem_sortAsc _ _ _ hpk
  rw [List.mem_flatMap] at hpk'
  obtain ⟨entry, _, hm⟩ := hpk'
  rw [List.mem_map] at hm
  obtain ⟨m, hmem, heq⟩ := hm
  obtain ⟨hdec, ch, hch, hcn⟩ := finditerAux_spec entry.2 text _ _ m hmem
  have hcne : m.2.1 ≠ [] := by
    intro hn
    rw [hn] at hch
    simp at hch
  have hlen := congrArg List.length hdec
  simp only [List.length_append, List.length_take] at hlen
  have hm1le : m.1 ≤ text.length := by
    rcases Nat.le_total m.1 text.length with hle | hge
    · exact hle
    · rw [Nat.min_eq_right hge] at hlen
      have : m.2.1.length = 0 := by omega
      rw [List.length_eq_zero] at this
      exact absurd this hcne
  rw [Nat.min_eq_left hm1le] at hlen
  have hpk1 : pk.1 = m.1 + m.2.1.length := by rw [← heq]
  constructor
  · omega
  · refine ⟨ch, ?_, hcn⟩
    have hlt : (text.take m.1).length = m.1 := by
      rw [List.length_take, Nat.min_eq_left hm1le]
    have htk : text.take pk.1 = text.take m.1 ++ m.2.1 := by
      rw [hpk1]
      conv_lhs => rw [hdec, List.append_assoc]
      rw [take_append_len _ _ _ _ hlt, List.take_left]
    rw [htk, List.getLast?_append, hch]
    rfl

theorem getLast?_mem (l : Str) (c : Char) (h : l.getLast? = some c) : c ∈ l := by
  induction l with
  | nil => simp at h
  | cons x xs ih =>
    cases xs with
    | nil =>
      simp only [List.getLast?_singleton, Option.some.injEq] at h
      simp [h]
    | cons y ys =>
      rw [List.getLast?_cons_cons] at h
      exact List.mem_cons_of_mem _ (ih h)

theorem sliceBodies_mem (text : Str) :
    ∀ (ps : List (Nat × String)) (k : String) (v : Str),
      (k, v) ∈ sliceBodies text ps →
      ∃ st en, v = strip (pySlice text st en) ∧ (st, k) ∈ ps ∧
        (en = text.length ∨ ∃ k2, (en, k2) ∈ ps) := by
  intro ps
  induction ps with
  | nil => intro k v h; simp [sliceBodies] at h
  | cons pk rest ih =>
    intro k v h
    obtain ⟨p0, k0⟩ := pk
    cases rest with
    | nil =>
      simp only [sliceBodies, List.mem_singleton] at h
      injection h with hk hv
      subst hk
      exact ⟨p0, text.length, hv, List.mem_cons_self _ _, Or.inl rfl⟩
    | cons q rest' =>
      obtain ⟨q1, k1⟩ := q
      simp only [sliceBodies] at h
      rcases List.mem_cons.mp h with h1 | h2
      · injection h1 with hk hv
        subst hk
        refine ⟨p0, q1, hv, List.mem_cons_self _ _, Or.inr ⟨k1, ?_⟩⟩
        exact List.mem_cons_of_mem _ (List.mem_cons_self _ _)
      · obtain ⟨st, en, hv, hmem, hor⟩ := ih k v h2
        refine ⟨st, en, hv, List.mem_cons_of_mem _ hmem, ?_⟩
        rcases hor with h3 | ⟨k2, h4⟩
        · exact Or.inl h3
        · exact Or.inr ⟨k2, List.mem_cons_of_mem _ h4⟩

theorem mem_dictUpsert {α : Type} (k : String) (v : α) :
    ∀ (d : List (String × α)) (kv : String × α),
      kv ∈ dictUpsert d k v → kv = (k, v) ∨ kv ∈ d := by
  intro d
  induction d with
  | nil => intro kv h; simpa [dictUpsert] using h
  | cons x xs ih =>
    intro kv h
    rw [dictUpsert] at h
    split at h
    · rcases List.mem_cons.mp h with h1 | h2
      · exact Or.inl h1
      · exact Or.inr (List.mem_cons_of_mem _ h2)
    · rcases List.mem_cons.mp h with h1 | h2
      · exact Or.inr (by rw [h1]; exact List.mem_cons_self _ _)
      · rcases ih kv h2 with h3 | h4
        · exact Or.inl h3
        · exact Or.inr (List.mem_cons_of_mem _ h4)

theorem dict_from {α : Type} :
    ∀ (l acc : List (String × α)) (kv : String × α),
      kv ∈ l.foldl (fun d x => dictUpsert d x.1 x.2) acc → kv ∈ acc ∨ kv ∈ l := by
  intro l
  induction l with
  | nil => intro acc kv h; exact Or.inl h
  | cons x xs ih =>
    intro acc kv h
    rcases ih (dictUpsert acc x.1 x.2) kv h with h1 | h2
    · rcases mem_dictUpsert x.1 x.2 acc kv h1 with h3 | h4
      · exact Or.inr (by rw [h3, show (x.1, x.2) = x from rfl]; exact List.mem_cons_self _ _)
      · exact Or.inl h4
    · exact Or.inr (List.mem_cons_of_mem _ h2)

theorem dictGet_mem {α : Type} (d : List (String × α)) (k : String) (v : α)
    (h : dictGet d k = some v) : (k, v) ∈ d := by
  unfold dictGet at h
  cases hf : d.find? (fun kv => kv.1 = k) with
  | none => rw [hf] at h; simp at h
  | some kv =>
    rw [hf] at h
    simp only [Option.map_some', Option.some.injEq] at h
    have hmem := List.mem_of_find?_eq_some hf
    have hp := List.find?_some hf
    simp only [decide_eq_true_eq] at hp
    have hkv : kv = (k, v) := Prod.ext hp h
    rw [← hkv]
    exact hmem

/-- Every body stored by `identify_sections` is a stripped slice of the
text between safe cut points. -/
theorem identify_sections_body (text : Str) (k : String) (v : Str)
    (h : dictGet (identify_sections text) k = some v) :
    ∃ st en, v = strip (pySlice text st en) ∧
      (∃ ch, (text.take st).getLast? = some ch ∧ (ch = ':' ∨ ch = '\n')) ∧
      (en = text.length ∨
        ∃ ch, (text.take en).getLast? = some ch ∧ (ch = ':' ∨ ch = '\n')) := by
  have hmem := dictGet_mem _ _ _ h
  unfold identify_sections at hmem
  rcases dict_from _ _ _ hmem with h1 | h2
  · simp at h1
  · obtain ⟨st, en, hv, hst, hor⟩ := sliceBodies_mem text _ k v h2
    obtain ⟨_, hstch⟩ := sectionBoundaries_spec text (st, k) hst
    refine ⟨st, en, hv, hstch, ?_⟩
    rcases hor with h3 | ⟨k2, h4⟩
    · exact Or.inl h3
    · exact Or.inr (sectionBoundaries_spec text (en, k2) h4).2

/-- Core safety lemma: the stripped slice of the text between a safe left
cut point and a right cut that either starts safely or sits right after a
colon/newline has no date match on any of its lines, when the whole text
has none. -/
theorem safe_slice_lines_none (text : Str) (st en : Nat) (sec : Str)
    (hsec : sec = strip (pySlice text st en))
    (hst : ∀ ch, (text.take st).getLast? = some ch → isDigitC ch = false)
    (hen : (∀ ch, (text.drop en).head? = some ch → isDigitC ch = false)
           ∨ (∃ ch, (text.take en).getLast? = some ch ∧ (ch = ':' ∨ ch = '\n')))
    (hall : ∀ lw ∈ splitLines text, lineFirstDate lw = none) :
    ∀ l ∈ splitLines sec, lineFirstDate l = none := by
  by_cases hsecnil : sec = []
  · subst hsecnil
    intro l hl
    simp only [splitLines, List.mem_singleton] at hl
    rw [hl]
    exact lineFirstDate_nil
  · by_cases hnil : pySlice text st en = []
    · exact absurd (by rw [hsec, hnil]; rfl) hsecnil
    · have hlt : st < en := pySlice_ne_lt _ _ _ hnil
      have hdec := slice_decomp text st en (le_of_lt hlt)
      obtain ⟨a', b', hslice, ha'ws, hb'ws⟩ := strip_decomp (pySlice text st en)
      rw [← hsec] at hslice
      have hdec2 : text = (text.take st ++ a') ++ sec ++ (b' ++ text.drop en) := by
        conv_lhs => rw [hdec, hslice]
        simp [List.append_assoc]
      refine section_lines_none text _ sec _ hdec2 ?_ ?_ hall
      · intro ch hch
        rw [List.getLast?_append] at hch
        cases hga : a'.getLast? with
        | some cw =>
          rw [hga] at hch
          have : cw = ch := by
            have : Option.some cw = some ch := by rw [← hch]; rfl
            exact Option.some.inj this
          subst this
          exact space_not_digit cw (ha'ws cw (getLast?_mem a' cw hga))
        | none =>
          rw [hga] at hch
          exact hst ch (by rw [← hch]; rfl)
      · cases hb' : b' with
        | cons cb b'' =>
          refine Or.inl ?_
          intro ch hch
          simp only [List.cons_append, List.head?_cons, Option.some.injEq] at hch
          subst hch
          exact space_not_digit cb (hb'ws cb (by rw [hb']; exact List.mem_cons_self _ _))
        | nil =>
          rcases hen with henL | ⟨ch, hch, hcn⟩
          · refine Or.inl ?_
            intro c0 hc0
            simp only [List.nil_append] at hc0
            exact henL c0 hc0
          · -- the slice ends right after a colon or newline; with no
            -- trailing whitespace stripped, that character is the last
            -- character of the stripped body itself
            have hsl : (pySlice text st en).getLast? = some ch := by
              have hX : text.take en = (text.take en).take st ++ pySlice text st en := by
                exact (List.take_append_drop st (text.take en)).symm
              rw [hX, List.getLast?_append] at hch
              cases hgp : (pySlice text st en).getLast? with
              | none =>
                exfalso
                obtain ⟨z, zs, hz⟩ := List.exists_cons_of_ne_nil hnil
                obtain ⟨u, hu⟩ := cons_getLast_some z zs
                rw [hz, hu] at hgp
                exact Option.noConfusion hgp
              | some u =>
                rw [hgp] at hch
                exact hch
            have hsecl : sec.getLast? = some ch := by
              rw [hslice, hb', List.append_nil, List.getLast?_append] at hsl
              cases hgs : sec.getLast? with
              | none =>
                exfalso
                obtain ⟨z, zs, hz⟩ := List.exists_cons_of_ne_nil hsecnil
                obtain ⟨u, hu⟩ := cons_getLast_some z zs
                rw [hz, hu] at hgs
                exact Option.noConfusion hgs
              | some u =>
                rw [hgs] at hsl
                exact hsl
            rcases hcn with rfl | rfl
            · exact Or.inr hsecl
            · exfalso
              have := strip_getLast_not_space (pySlice text st en) '\n'
                (by rw [← hsec]; exact hsecl)
              simp [isPySpace] at this

theorem drop_append_len (P X : Str) (p : Nat) (hp : P.length = p) :
    (P ++ X).drop p = X := by
  rw [← hp, List.drop_left]

/-- Fallback branch: a body fetched from `identify_sections` under the
`"experience"` key has no date match on its lines when the whole text
has none. -/
theorem fallback_lines_none (text sec : Str)
    (h : dictGet (identify_sections text) "experience" = some sec)
    (hall : ∀ lw ∈ splitLines text, lineFirstDate lw = none) :
    ∀ l ∈ splitLines sec, lineFirstDate l = none := by
  obtain ⟨st, en, hv, ⟨ch1, hch1, hcn1⟩, hor⟩ := identify_sections_body text _ sec h
  refine safe_slice_lines_none text st en sec hv ?_ ?_ hall
  · intro ch hch
    rw [hch1] at hch
    have hc := Option.some.inj hch
    subst hc
    rcases hcn1 with rfl | rfl <;> decide
  · rcases hor with rfl | ⟨ch2, hch2, hcn2⟩
    · refine Or.inl ?_
      intro ch hch
      rw [List.drop_length] at hch
      exact Option.noConfusion hch
    · exact Or.inr ⟨ch2, hch2, hcn2⟩

/-- Whatever `locateExperienceSection` returns, its lines carry no date
match when no line of the whole text does. -/
theorem locate_lines_none (text sec : Str)
    (hloc : locateExperienceSection text = some sec)
    (hall : ∀ lw ∈ splitLines text, lineFirstDate lw = none) :
    ∀ l ∈ splitLines sec, lineFirstDate l = none := by
  cases hm : searchHdr expHdrBody text with
  | none =>
    replace hloc : dictGet (identify_sections text) "experience" = some sec := by
      rw [locateExperienceSection] at hloc
      rw [hm] at hloc
      exact hloc
    exact fallback_lines_none text sec hloc hall
  | some m =>
    obtain ⟨p, c, r⟩ := m
    obtain ⟨hple, hdecomp, ⟨chc, hchc, hchcn⟩, _⟩ := searchHdr_spec expHdrBody text p c r hm
    have hPlen : (text.take p).length = p := by
      rw [List.length_take]
      exact Nat.min_eq_left hple
    have htake : text.take (p + c.length) = text.take p ++ c := by
      conv_lhs => rw [hdecomp]
      rw [List.append_assoc, take_append_len _ _ _ _ hPlen, List.take_left]
    have hstfact : ∀ ch, (text.take (p + c.length)).getLast? = some ch →
        isDigitC ch = false := by
      intro ch hch
      rw [htake, List.getLast?_append, hchc] at hch
      have hc : chc = ch := Option.some.inj hch
      subst hc
      rcases hchcn with rfl | rfl <;> decide
    cases he : searchHdr eduHdrBody text with
    | none =>
      simp only [locateExperienceSection, hm, he] at hloc
      by_cases hs : strip (pySlice text (p + c.length) text.length) = []
      · rw [if_pos hs] at hloc
        replace hloc : dictGet (identify_sections text) "experience" = some sec := hloc
        exact fallback_lines_none text sec hloc hall
      · rw [if_neg hs] at hloc
        replace hloc : some (strip (pySlice text (p + c.length) text.length)) = some sec :=
          hloc
        refine safe_slice_lines_none text (p + c.length) text.length sec
          (Option.some.inj hloc).symm hstfact (Or.inl ?_) hall
        intro ch hch
        rw [List.drop_length] at hch
        exact Option.noConfusion hch
    | some m2 =>
      obtain ⟨p2, c2, r2⟩ := m2
      simp only [locateExperienceSection, hm, he] at hloc
      by_cases hs : strip (pySlice text (p + c.length) p2) = []
      · rw [if_pos hs] at hloc
        replace hloc : dictGet (identify_sections text) "experience" = some sec := hloc
        exact fallback_lines_none text sec hloc hall
      · rw [if_neg hs] at hloc
        replace hloc : some (strip (pySlice text (p + c.length) p2)) = some sec := hloc
        obtain ⟨hp2le, hdec2, _, hp2h⟩ := searchHdr_spec eduHdrBody text p2 c2 r2 he
        refine safe_slice_lines_none text (p + c.length) p2 sec
          (Option.some.inj hloc).symm hstfact ?_ hall
        rcases hp2h with hp20 | hc2h
        · exfalso
          apply hs
          rw [hp20]
          have hz : pySlice text (p + c.length) 0 = [] := by
            simp [pySlice]
          rw [hz]
          rfl
        · refine Or.inl ?_
          intro ch hch
          have hP2len : (text.take p2).length = p2 := by
            rw [List.length_take]
            exact Nat.min_eq_left hp2le
          have hdrop : text.drop p2 = c2 ++ r2 := by
            conv_lhs => rw [hdec2]
            rw [List.append_assoc]
            exact drop_append_len _ _ _ hP2len
          rw [hdrop] at hch
          cases c2 with
          | nil => simp at hc2h
          | cons x tl =>
            simp only [List.head?_cons, Option.some.injEq] at hc2h
            subst hc2h
            simp only [List.cons_append, List.head?_cons, Option.some.injEq] at hch
            subst hch
            decide

theorem enumFrom_snd_mem {α : Type} :
    ∀ (l : List α) (n : Nat) (p : Nat × α), p ∈ l.enumFrom n → p.2 ∈ l := by
  intro l
  induction l with
  | nil => intro n p h; simp [List.enumFrom] at h
  | cons x xs ih =>
    intro n p h
    rw [List.enumFrom] at h
    rcases List.mem_cons.mp h with h1 | h2
    · rw [h1]
      exact List.mem_cons_self _ _
    · exact List.mem_cons_of_mem _ (ih _ _ h2)

/-- A text with no digits, month names, or date-like content anywhere. -/
def noDateText : Str := "Resume of Plain Person\nA person who writes no numbers at all".data

/-- C5: on input whose lines none match any of the nine date patterns, the
work-experience extractor finds no anchors and returns the empty list. -/
theorem c5_theorem (text : Str)
    (hall : ∀ lw ∈ splitLines text, lineFirstDate lw = none) :
    extract_work_experiences_v2 text = [] := by
  cases hloc : locateExperienceSection text with
  | none => simp only [extract_work_experiences_v2, hloc]
  | some sec =>
    have hnone := locate_lines_none text sec hloc hall
    have hdp : datePositions (splitLines sec) = [] := by
      rw [datePositions, List.filterMap_eq_nil_iff]
      intro il hil
      show ((lineFirstDate il.2).map fun d => (il.1, d)) = none
      rw [hnone il.2 (enumFrom_snd_mem _ _ _ hil)]
      rfl
    simp only [extract_work_experiences_v2, hloc, hdp]
    rfl

/-- Witness for C5: a concrete dateless text satisfies the hypothesis and
yields the empty list. -/
theorem c5_witness :
    (∀ lw ∈ splitLines noDateText, lineFirstDate lw = none) ∧
      extract_work_experiences_v2 noDateText = [] :=
  ⟨by decide, c5_theorem noDateText (by decide)⟩

theorem setInsert_nodup (acc : List Str) (x : Str) (h : acc.Nodup) :
    (setInsert acc x).Nodup := by
  rw [setInsert]
  split
  · exact h
  · rename_i hc
    rw [List.nodup_append]
    refine ⟨h, List.nodup_singleton x, ?_⟩
    intro a ha hax
    rw [List.mem_singleton] at hax
    subst hax
    exact hc (List.elem_iff.mpr ha)

theorem foldl_setInsert_nodup :
    ∀ (l acc : List Str), acc.Nodup → (l.foldl setInsert acc).Nodup := by
  intro l
  induction l with
  | nil => intro acc h; exact h
  | cons x xs ih => intro acc h; exact ih _ (setInsert_nodup acc x h)

theorem skills_foldl_nodup (text : Str) :
    ∀ (gs : List (List String)) (acc : List Str), acc.Nodup →
      (gs.foldl
        (fun acc g => (scanSkillPat (g.map String.data) text).foldl setInsert acc)
        acc).Nodup := by
  intro gs
  induction gs with
  | nil => intro acc h; exact h
  | cons g gs' ih => intro acc h; exact ih _ (foldl_setInsert_nodup _ _ h)

/-- C4 (amended): the skill list is always duplicate-free, deduplication is
by exact matched string, and differently-cased variants survive side by
side: on `"Python python"` both casings are returned. -/
theorem c4_theorem :
    (∀ text : Str, (extract_skills text).Nodup) ∧
      "Python".data ∈ extract_skills pySkillsText ∧
      "python".data ∈ extract_skills pySkillsText := by
  refine ⟨fun text => skills_foldl_nodup text skillGroups [] List.nodup_nil, ?_, ?_⟩
  · decide
  · decide

/-- Spec-side restatement of C8's words: only the first three lines are
considered, the first line with at most 4 whitespace-separated tokens and
stripped length over 3 is returned (stripped), else `none`. -/
def name_spec (text : Str) : Option Str :=
  (((splitLines text).take 3).find?
    (fun l => wsTokens (strip l) ≤ 4 && (strip l).length > 3)).map strip

theorem findSome?_guard {α β : Type} (p : α → Bool) (f : α → β) :
    ∀ L : List α,
      (L.findSome? (fun l => if p l then some (f l) else none)) = (L.find? p).map f := by
  intro L
  induction L with
  | nil => rfl
  | cons x xs ih =>
    cases hx : p x with
    | true => simp [List.findSome?_cons, hx]
    | false => simp [List.findSome?_cons, hx, ih]

/-- C8: the name extractor agrees with the spec's description exactly: it
scans only the first three lines and returns the first stripped line with
at most 4 whitespace tokens and stripped length above 3, else `none`. -/
theorem c8_theorem (text : Str) : extract_name text = name_spec text := by
  rw [extract_name, name_spec,
    ← findSome?_guard (fun l => wsTokens (strip l) ≤ 4 && (strip l).length > 3) strip]
  congr 1
  funext l
  cases l with
  | nil => decide
  | cons c r =>
    have h1 : decide ((c :: r : Str) ≠ []) = true := by simp
    rw [h1, Bool.true_and]

/-- The twelve section kinds named by the spec (keys of the source's
`section_patterns` dict). -/
def validKinds : List String :=
  ["summary", "experience", "education", "skills", "certifications",
   "languages", "projects", "interests", "references", "publications",
   "awards", "volunteering"]

/-- C10: every key of the mapping returned by `identify_sections` is one of
the twelve fixed section kinds. -/
theorem c10_theorem (text : Str) :
    ∀ kv ∈ identify_sections text, kv.1 ∈ validKinds := by
  intro kv hkv
  rw [identify_sections] at hkv
  rcases dict_from _ _ _ hkv with h1 | h2
  · simp at h1
  · obtain ⟨st, en, _, hst, _⟩ := sliceBodies_mem text _ kv.1 kv.2
      (by rw [show (kv.1, kv.2) = kv from rfl]; exact h2)
    have hb := mem_sortAsc _ _ _ hst
    rw [List.mem_flatMap] at hb
    obtain ⟨entry, hentry, hm⟩ := hb
    rw [List.mem_map] at hm
    obtain ⟨m, _, heq⟩ := hm
    have hk : entry.1 = kv.1 := congrArg Prod.snd heq
    rw [← hk]
    simp only [sectionPatternTable, List.mem_cons, List.not_mem_nil, or_false] at hentry
    rcases hentry with rfl | rfl | rfl | rfl | rfl | rfl | rfl | rfl | rfl | rfl | rfl | rfl
      <;> decide

def c10Text : Str := "Experience:\nWorked here".data

set_option maxRecDepth 100000 in
/-- Witness for C10 at a concrete input: the single stored pair is keyed
`"experience"`, which the theorem places in the twelve-kind set. -/
theorem c10_witness :
    ("experience", "Worked here".data) ∈ identify_sections c10Text ∧
      "experience" ∈ validKinds :=
  ⟨by decide, c10_theorem c10Text ("experience", "Worked here".data) (by decide)⟩

theorem pairwise_insAsc {α : Type} (lt : α → α → Bool) (R : α → α → Prop)
    (h1 : ∀ a b, lt a b = true → R a b)
    (h2 : ∀ a b, lt a b = false → R b a)
    (h3 : ∀ a b c, R a b → R b c → R a c) :
    ∀ (l : List α) (x : α), l.Pairwise R → (insAsc lt x l).Pairwise R := by
  intro l
  induction l with
  | nil =>
    intro x _
    simp [insAsc]
  | cons y ys ih =>
    intro x hp
    rw [insAsc]
    rcases List.pairwise_cons.mp hp with ⟨hy, hys⟩
    split
    · rename_i hlt
      refine List.pairwise_cons.mpr ⟨?_, hp⟩
      intro z hz
      rcases List.mem_cons.mp hz with rfl | hz'
      · exact h1 _ _ hlt
      · exact h3 x y z (h1 _ _ hlt) (hy z hz')
    · rename_i hnlt
      have hflt : lt x y = false := Bool.eq_false_iff.mpr hnlt
      refine List.pairwise_cons.mpr ⟨?_, ih x hys⟩
      intro z hz
      rcases mem_insAsc lt x z ys hz with rfl | hz'
      · exact h2 _ _ hflt
      · exact hy z hz'

theorem pairwise_sortAsc {α : Type} (lt : α → α → Bool) (R : α → α → Prop)
    (h1 : ∀ a b, lt a b = true → R a b)
    (h2 : ∀ a b, lt a b = false → R b a)
    (h3 : ∀ a b c, R a b → R b c → R a c) (l : List α) :
    (sortAsc lt l).Pairwise R := by
  rw [sortAsc]
  have aux : ∀ (l acc : List α), acc.Pairwise R →
      (l.foldl (fun acc x => insAsc lt x acc) acc).Pairwise R := by
    intro l
    induction l with
    | nil => intro acc h; exact h
    | cons x xs ih => intro acc h; exact ih _ (pairwise_insAsc lt R h1 h2 h3 acc x h)
  exact aux l [] List.Pairwise.nil

/-- The sorted boundary list is ascending in offsets. -/
theorem sectionBoundaries_sorted (text : Str) :
    (sectionBoundaries text).Pairwise (fun a b => a.1 ≤ b.1) := by
  rw [sectionBoundaries]
  refine pairwise_sortAsc bndLT _ ?_ ?_ ?_ _
  · intro a b h
    rw [bndLT, Bool.or_eq_true] at h
    rcases h with h | h
    · exact Nat.le_of_lt (by simpa using h)
    · rw [Bool.and_eq_true] at h
      exact Nat.le_of_eq (by simpa using h.1)
  · intro a b h
    rw [bndLT, Bool.or_eq_false_iff] at h
    have : ¬ a.1 < b.1 := by simpa using h.1
    exact Nat.le_of_not_lt this
  · intro a b c
    exact Nat.le_trans

theorem dictGet_upsert_same {α : Type} (k : String) (v : α) :
    ∀ d : List (String × α), dictGet (dictUpsert d k v) k = some v := by
  intro d
  induction d with
  | nil => simp [dictUpsert, dictGet]
  | cons x xs ih =>
    rw [dictUpsert]
    split
    · simp [dictGet]
    · rename_i h
      rw [dictGet, List.find?_cons_of_neg _ (by simpa using h)]
      exact ih

theorem dictGet_upsert_other {α : Type} (k' k : String) (v : α) (hk : k' ≠ k) :
    ∀ d : List (String × α), dictGet (dictUpsert d k' v) k = dictGet d k := by
  intro d
  induction d with
  | nil => simp [dictUpsert, dictGet, hk]
  | cons x xs ih =>
    rw [dictUpsert]
    split
    · rename_i h
      rw [dictGet, dictGet, List.find?_cons_of_neg _ (by simpa using hk),
        List.find?_cons_of_neg _ (by simp [h, hk])]
    · by_cases hx : x.1 = k
      · rw [dictGet, dictGet, List.find?_cons_of_pos _ (by simpa using hx),
          List.find?_cons_of_pos _ (by simpa using hx)]
      · rw [dictGet, dictGet, List.find?_cons_of_neg _ (by simpa using hx),
          List.find?_cons_of_neg _ (by simpa using hx)]
        exact ih

theorem find?_append_or {α : Type} (p : α → Bool) :
    ∀ (l₁ l₂ : List α), (l₁ ++ l₂).find? p = (l₁.find? p).or (l₂.find? p) := by
  intro l₁
  induction l₁ with
  | nil => intro l₂; rfl
  | cons x xs ih =>
    intro l₂
    cases hx : p x with
    | true =>
      rw [List.cons_append, List.find?_cons_of_pos _ hx, List.find?_cons_of_pos _ hx]
      rfl
    | false =>
      rw [List.cons_append, List.find?_cons_of_neg _ (by simp [hx]),
        List.find?_cons_of_neg _ (by simp [hx]), ih]

/-- The value a Python dict built left-to-right keeps for `k`: the last
pair with key `k` wins. -/
def lastVal {α : Type} (l : List (String × α)) (k : String) : Option α :=
  (l.reverse.find? (fun kv => kv.1 = k)).map (fun kv => kv.2)

theorem lastVal_cons {α : Type} (x : String × α) (l : List (String × α)) (k : String) :
    lastVal (x :: l) k = (lastVal l k).or (if x.1 = k then some x.2 else none) := by
  rw [lastVal, lastVal, List.reverse_cons, find?_append_or]
  cases hf : l.reverse.find? (fun kv => decide (kv.1 = k)) with
  | some w => rfl
  | none =>
    by_cases hx : x.1 = k
    · rw [List.find?_cons_of_pos _ (by simpa using hx), if_pos hx]
      rfl
    · rw [List.find?_cons_of_neg _ (by simpa using hx), if_neg hx]
      rfl

theorem dictGet_foldl {α : Type} :
    ∀ (l acc : List (String × α)) (k : String),
      dictGet (l.foldl (fun d kv => dictUpsert d kv.1 kv.2) acc) k =
        (lastVal l k).or (dictGet acc k) := by
  intro l
  induction l with
  | nil =>
    intro acc k
    rfl
  | cons x xs ih =>
    intro acc k
    rw [List.foldl_cons, ih, lastVal_cons]
    cases hl : lastVal xs k with
    | some w => rfl
    | none =>
      by_cases hx : x.1 = k
      · rw [if_pos hx]
        show dictGet (dictUpsert acc x.1 x.2) k = some x.2
        rw [hx]
        exact dictGet_upsert_same k x.2 acc
      · rw [if_neg hx]
        show dictGet (dictUpsert acc x.1 x.2) k = dictGet acc k
        exact dictGet_upsert_other x.1 k x.2 hx acc

theorem lastVal_none_no_key {α : Type} (l : List (String × α)) (k : String) (w : α)
    (hn : lastVal l k = none) (hw : (k, w) ∈ l) : False := by
  rw [lastVal, Option.map_eq_none'] at hn
  have := List.find?_eq_none.mp hn (k, w) (List.mem_reverse.mpr hw)
  simp at this

theorem sliceBodies_key (text : Str) :
    ∀ (bs : List (Nat × String)) (q : Nat) (k : String), (q, k) ∈ bs →
      ∃ w, (k, w) ∈ sliceBodies text bs := by
  intro bs
  induction bs with
  | nil => intro q k h; simp at h
  | cons b rest ih =>
    intro q k h
    obtain ⟨p0, k0⟩ := b
    rcases List.mem_cons.mp h with h1 | h2
    · injection h1 with hq hk
      subst hk
      cases rest with
      | nil => exact ⟨_, by simp only [sliceBodies]; exact List.mem_cons_self _ _⟩
      | cons r0 rest' =>
        obtain ⟨r1, rk⟩ := r0
        exact ⟨_, by simp only [sliceBodies]; exact List.mem_cons_self _ _⟩
    · obtain ⟨w, hw⟩ := ih q k h2
      cases rest with
      | nil => simp at h2
      | cons r0 rest' =>
        obtain ⟨r1, rk⟩ := r0
        exact ⟨w, by simp only [sliceBodies]; exact List.mem_cons_of_mem _ hw⟩

theorem lastVal_sliceBodies (text : Str) :
    ∀ (bs : List (Nat × String)) (k : String) (v : Str),
      bs.Pairwise (fun a b => a.1 ≤ b.1) →
      lastVal (sliceBodies text bs) k = some v →
      ∃ st en, (st, k) ∈ bs ∧ (∀ q, (q, k) ∈ bs → q ≤ st) ∧
        v = strip (pySlice text st en) ∧
        (en = text.length ∨ ∃ k2, (en, k2) ∈ bs) := by
  intro bs
  induction bs with
  | nil => intro k v _ h; simp [sliceBodies, lastVal] at h
  | cons b rest ih =>
    intro k v hpw hlast
    obtain ⟨p0, k0⟩ := b
    rcases List.pairwise_cons.mp hpw with ⟨hble, hrest⟩
    cases rest with
    | nil =>
      simp only [sliceBodies] at hlast
      rw [lastVal_cons] at hlast
      replace hlast :
          (if k0 = k then some (strip (pySlice text p0 text.length)) else none)
            = some v := hlast
      by_cases hk0 : k0 = k
      · subst hk0
        rw [if_pos rfl] at hlast
        have hv : v = strip (pySlice text p0 text.length) :=
          (Option.some.inj hlast).symm
        refine ⟨p0, text.length, List.mem_cons_self _ _, ?_, hv, Or.inl rfl⟩
        intro q hq
        rcases List.mem_cons.mp hq with h1 | h2
        · injection h1 with hq0 _
          exact Nat.le_of_eq hq0
        · simp at h2
      · rw [if_neg hk0] at hlast
        exact Option.noConfusion hlast
    | cons r0 rest' =>
      obtain ⟨r1, rk⟩ := r0
      simp only [sliceBodies] at hlast
      rw [lastVal_cons] at hlast
      replace hlast :
          (lastVal (sliceBodies text ((r1, rk) :: rest')) k).or
            (if k0 = k then some (strip (pySlice text p0 r1)) else none)
            = some v := hlast
      cases hl : lastVal (sliceBodies text ((r1, rk) :: rest')) k with
      | some w =>
        rw [hl] at hlast
        have hvw : w = v := Option.some.inj hlast
        subst hvw
        obtain ⟨st, en, hmem, hmax, hv, hor⟩ := ih k w hrest hl
        refine ⟨st, en, List.mem_cons_of_mem _ hmem, ?_, hv, ?_⟩
        · intro q hq
          rcases List.mem_cons.mp hq with h1 | h2
          · injection h1 with hq0 hk0
            subst hq0
            exact hble _ hmem
          · exact hmax q h2
        · rcases hor with h1 | ⟨k2, h2⟩
          · exact Or.inl h1
          · exact Or.inr ⟨k2, List.mem_cons_of_mem _ h2⟩
      | none =>
        rw [hl] at hlast
        by_cases hk0 : k0 = k
        · subst hk0
          rw [if_pos rfl] at hlast
          have hv : v = strip (pySlice text p0 r1) := (Option.some.inj hlast).symm
          refine ⟨p0, r1, List.mem_cons_self _ _, ?_, hv,
            Or.inr ⟨rk, List.mem_cons_of_mem _ (List.mem_cons_self _ _)⟩⟩
          intro q hq
          rcases List.mem_cons.mp hq with h1 | h2
          · injection h1 with hq0 _
            exact Nat.le_of_eq hq0
          · exfalso
            obtain ⟨w, hw⟩ := sliceBodies_key text _ q k0 h2
            exact lastVal_none_no_key _ _ _ hl hw
        · rw [if_neg hk0] at hlast
          exact Option.noConfusion hlast

/-- C7: with zero boundaries `identify_sections` returns the empty mapping,
and in general the body stored under a kind is the one computed from that
kind's greatest boundary offset (last write wins). -/
theorem c7_theorem (text : Str) :
    (sectionBoundaries text = [] → identify_sections text = []) ∧
    (∀ k v, dictGet (identify_sections text) k = some v →
      ∃ st en, (st, k) ∈ sectionBoundaries text ∧
        (∀ q, (q, k) ∈ sectionBoundaries text → q ≤ st) ∧
        v = strip (pySlice text st en) ∧
        (en = text.length ∨ ∃ k2, (en, k2) ∈ sectionBoundaries text)) := by
  constructor
  · intro h
    rw [identify_sections, h]
    rfl
  · intro k v hget
    rw [identify_sections, dictGet_foldl] at hget
    have hnone : dictGet ([] : List (String × Str)) k = none := rfl
    rw [hnone] at hget
    cases hl : lastVal (sliceBodies text (sectionBoundaries text)) k with
    | none => rw [hl] at hget; exact Option.noConfusion hget
    | some w =>
      rw [hl] at hget
      have hw : w = v := Option.some.inj hget
      subst hw
      exact lastVal_sliceBodies text _ k w (sectionBoundaries_sorted text) hl

/-- The half-open spans `[offset, next offset)` cut by a boundary offset
list, the last span running to `len` (the slicing loop of
`identify_sections`, source lines 229-236). -/
def spansOf : List Nat → Nat → List (Nat × Nat)
  | [], _ => []
  | [a], len => [(a, len)]
  | a :: b :: rest, len => (a, b) :: spansOf (b :: rest) len

def joinL : List Str → Str
  | [] => []
  | x :: r => x ++ joinL r

/-- Adjacent spans abut exactly: each span's end is the next span's start. -/
def abutsB : List (Nat × Nat) → Bool
  | x :: y :: rest => x.2 = y.1 && abutsB (y :: rest)
  | _ => true

theorem sliceBodies_snd (text : Str) :
    ∀ bs : List (Nat × String),
      (sliceBodies text bs).map Prod.snd
        = (spansOf (bs.map Prod.fst) text.length).map
            (fun ab => strip (pySlice text ab.1 ab.2)) := by
  intro bs
  induction bs with
  | nil => rfl
  | cons b rest ih =>
    obtain ⟨p0, k0⟩ := b
    cases rest with
    | nil => rfl
    | cons r0 rest' =>
      obtain ⟨r1, rk⟩ := r0
      simp only [sliceBodies, List.map_cons, spansOf] at ih ⊢
      rw [ih]

theorem abuts_spansOf (len : Nat) :
    ∀ offs : List Nat, abutsB (spansOf offs len) = true := by
  intro offs
  induction offs with
  | nil => rfl
  | cons a rest ih =>
    cases rest with
    | nil => rfl
    | cons b rest' =>
      cases rest' with
      | nil => simp [spansOf, abutsB]
      | cons c rest'' =>
        have h := ih
        simp only [spansOf] at h ⊢
        simp [abutsB, h]

theorem spans_cover (text : Str) :
    ∀ (offs : List Nat) (a : Nat),
      (a :: offs).Pairwise (fun x y => x ≤ y) →
      (∀ x ∈ a :: offs, x ≤ text.length) →
      joinL ((spansOf (a :: offs) text.length).map
        (fun ab => pySlice text ab.1 ab.2)) = text.drop a := by
  intro offs
  induction offs with
  | nil =>
    intro a _ _
    show pySlice text a text.length ++ [] = text.drop a
    rw [List.append_nil]
    show (text.take text.length).drop a = text.drop a
    rw [List.take_length]
  | cons b rest ih =>
    intro a hpw hbd
    have hih := ih b (List.pairwise_cons.mp hpw).2
      (fun x hx => hbd x (List.mem_cons_of_mem _ hx))
    have hab : a ≤ b := (List.pairwise_cons.mp hpw).1 b (List.mem_cons_self _ _)
    have hal : a ≤ text.length := hbd a (List.mem_cons_self _ _)
    have hlen : (text.take a).length = a := by
      rw [List.length_take]
      exact Nat.min_eq_left hal
    show pySlice text a b ++ joinL ((spansOf (b :: rest) text.length).map
      (fun ab => pySlice text ab.1 ab.2)) = text.drop a
    rw [hih]
    have hdec := slice_decomp text a b hab
    conv_rhs => rw [hdec]
    rw [List.append_assoc, drop_append_len _ _ _ hlen]

/-- C6: when the boundary list is nonempty (in particular under the claim's
hypothesis of two boundaries of different kinds at different offsets), the
bodies sliced by the segmenter are exactly the stripped spans from each
boundary's end offset to the next boundary's end offset (end of text for
the last), the spans abut with no overlap, and concatenated they cover the
text from the first matched offset to the end. -/
theorem c6_theorem (text : Str)
    (h : ∃ a b, a ∈ sectionBoundaries text ∧ b ∈ sectionBoundaries text ∧
      a.1 ≠ b.1 ∧ a.2 ≠ b.2) :
    ∃ bnd rest, sectionBoundaries text = bnd :: rest ∧
      (sliceBodies text (bnd :: rest)).map Prod.snd
        = (spansOf ((bnd :: rest).map Prod.fst) text.length).map
            (fun ab => strip (pySlice text ab.1 ab.2)) ∧
      abutsB (spansOf ((bnd :: rest).map Prod.fst) text.length) = true ∧
      joinL ((spansOf ((bnd :: rest).map Prod.fst) text.length).map
          (fun ab => pySlice text ab.1 ab.2)) = text.drop bnd.1 := by
  obtain ⟨a, b, ha, _, _, _⟩ := h
  have hne : sectionBoundaries text ≠ [] := by
    intro hn
    rw [hn] at ha
    simp at ha
  obtain ⟨bnd, rest, hcons⟩ := List.exists_cons_of_ne_nil hne
  refine ⟨bnd, rest, hcons, sliceBodies_snd text _, abuts_spansOf _ _, ?_⟩
  have hsorted := sectionBoundaries_sorted text
  rw [hcons] at hsorted
  have hpw : (bnd.1 :: rest.map Prod.fst).Pairwise (fun x y => x ≤ y) :=
    List.Pairwise.map Prod.fst (fun a b hh => hh) hsorted
  have hbd : ∀ x ∈ bnd.1 :: rest.map Prod.fst, x ≤ text.length := by
    intro x hx
    have hex : ∃ pk ∈ sectionBoundaries text, pk.1 = x := by
      rw [hcons]
      rcases List.mem_cons.mp hx with rfl | hx'
      · exact ⟨bnd, List.mem_cons_self _ _, rfl⟩
      · obtain ⟨pk, hpk, rfl⟩ := List.mem_map.mp hx'
        exact ⟨pk, List.mem_cons_of_mem _ hpk, rfl⟩
    obtain ⟨pk, hpk, rfl⟩ := hex
    exact (sectionBoundaries_spec text pk hpk).1
  have hcov := spans_cover text (rest.map Prod.fst) bnd.1 hpw hbd
  rw [List.map_cons]
  exact hcov

def c6Text : Str := "Experience:\nA\nSkills:\nB".data

set_option maxRecDepth 100000 in
/-- Witness for C6: on a text with an experience header and a skills header
the hypothesis holds concretely and the theorem applies. -/
theorem c6_witness :
    (∃ a b, a ∈ sectionBoundaries c6Text ∧ b ∈ sectionBoundaries c6Text ∧
      a.1 ≠ b.1 ∧ a.2 ≠ b.2) ∧
    (∃ bnd rest, sectionBoundaries c6Text = bnd :: rest ∧
      (sliceBodies c6Text (bnd :: rest)).map Prod.snd
        = (spansOf ((bnd :: rest).map Prod.fst) c6Text.length).map
            (fun ab => strip (pySlice c6Text ab.1 ab.2)) ∧
      abutsB (spansOf ((bnd :: rest).map Prod.fst) c6Text.length) = true ∧
      joinL ((spansOf ((bnd :: rest).map Prod.fst) c6Text.length).map
          (fun ab => pySlice c6Text ab.1 ab.2)) = c6Text.drop bnd.1) := by
  have h : ∃ a b, a ∈ sectionBoundaries c6Text ∧ b ∈ sectionBoundaries c6Text ∧
      a.1 ≠ b.1 ∧ a.2 ≠ b.2 :=
    ⟨(11, "experience"), (21, "skills"), by decide, by decide, by decide, by decide⟩
  exact ⟨h, c6_theorem c6Text h⟩

/-! ### C9: anchor accounting and the shape of matched dates.

Every date-pattern match starts with a year digit `1`/`2` or a month
initial (case-insensitively), so a matched date text can never be the
placeholder `"Unknown"`. -/

def dateHeadOK (c : Char) : Bool :=
  (['1', '2', 'J', 'F', 'M', 'A', 'S', 'O', 'N', 'D', 'E'] : List Char).any
    (fun i => chEq true i c)

/-- Every candidate the pattern yields consumes a nonempty string whose
first character is a possible date start. -/
def headOKRE (re : RE) : Prop :=
  ∀ s cr, cr ∈ matchL re s → ∃ x t, cr.1 = x :: t ∧ dateHeadOK x = true

theorem headOKRE_seq (a b : RE) (ha : headOKRE a) : headOKRE (.seq a b) := by
  intro s cr h
  obtain ⟨c1, r1, c2, h1, h2, heq⟩ := matchL_seq_inv a b s cr h
  obtain ⟨x, t, hx, hok⟩ := ha s (c1, r1) h1
  have hx' : c1 = x :: t := hx
  exact ⟨x, t ++ c2, by rw [heq, hx']; rfl, hok⟩

theorem headOKRE_alt (a b : RE) (ha : headOKRE a) (hb : headOKRE b) :
    headOKRE (.alt a b) := by
  intro s cr h
  rcases matchL_alt_inv a b s cr h with h1 | h2
  · exact ha s cr h1
  · exact hb s cr h2

theorem headOKRE_lit (w : Str) (wc : Char) (hw : w.head? = some wc)
    (hi : wc ∈ (['1', '2', 'J', 'F', 'M', 'A', 'S', 'O', 'N', 'D', 'E'] : List Char)) :
    headOKRE (.lit true w) := by
  intro s cr h
  simp only [matchL] at h
  split at h
  · rename_i hlm
    simp only [List.mem_singleton] at h
    subst h
    cases w with
    | nil => simp at hw
    | cons c0 w' =>
      have hc0 : c0 = wc := by simpa using hw
      cases s with
      | nil => simp [litMatch] at hlm
      | cons x s' =>
        simp only [litMatch, Bool.and_eq_true] at hlm
        refine ⟨x, s'.take w'.length, rfl, ?_⟩
        rw [dateHeadOK, List.any_eq_true]
        exact ⟨wc, hi, by rw [← hc0]; exact hlm.1⟩
  · simp at h

theorem headOKRE_litsCI (ws : List String)
    (hm : ∀ w ∈ ws,
      ∃ i ∈ (['1', '2', 'J', 'F', 'M', 'A', 'S', 'O', 'N', 'D', 'E'] : List Char),
        w.data.head? = some i) :
    headOKRE (litsCI ws) := by
  intro s cr h
  obtain ⟨w, hw, hlm, htake⟩ := matchL_litsCI_spec ws s cr h
  obtain ⟨i, hi, hhead⟩ := hm w hw
  cases hwd : w.data with
  | nil => rw [hwd] at hhead; simp at hhead
  | cons wc w' =>
    rw [hwd] at hhead hlm
    have hwc : wc = i := by simpa using hhead
    cases s with
    | nil => simp [litMatch] at hlm
    | cons x s' =>
      simp only [litMatch, Bool.and_eq_true] at hlm
      refine ⟨x, s'.take w'.length, ?_, ?_⟩
      · rw [htake, hwd]
        rfl
      · rw [dateHeadOK, List.any_eq_true]
        exact ⟨i, hi, by rw [← hwc]; exact hlm.1⟩

theorem headOK_yearNum : headOKRE yearNumRE :=
  headOKRE_seq _ _ (headOKRE_alt _ _
    (headOKRE_lit "19".data '1' rfl (by decide))
    (headOKRE_lit "20".data '2' rfl (by decide)))

theorem headOK_p9core : headOKRE p9core :=
  headOKRE_seq _ _ headOK_yearNum

theorem searchFrom_mem (re : RE) :
    ∀ (s : Str) (p : Nat) (c r : Str), searchFrom re s = some (p, c, r) →
      ∃ s', (c, r) ∈ matchL re s' := by
  intro s
  induction s with
  | nil =>
    intro p c r h
    rw [searchFrom] at h
    cases hm : matchL re [] with
    | nil => rw [hm] at h; exact Option.noConfusion h
    | cons cr rest =>
      rw [hm] at h
      simp only [Option.some.injEq] at h
      obtain ⟨rfl, rfl, rfl⟩ := Prod.mk.injEq .. ▸ h
      exact ⟨[], by rw [hm]; exact List.mem_cons_self _ _⟩
  | cons x s' ih =>
    intro p c r h
    rw [searchFrom] at h
    cases hm : matchL re (x :: s') with
    | cons cr rest =>
      rw [hm] at h
      simp only [Option.some.injEq] at h
      obtain ⟨rfl, rfl, rfl⟩ := Prod.mk.injEq .. ▸ h
      exact ⟨x :: s', by rw [hm]; exact List.mem_cons_self _ _⟩
    | nil =>
      rw [hm] at h
      cases hs : searchFrom re s' with
      | none => rw [hs] at h; exact Option.noConfusion h
      | some q =>
        rw [hs] at h
        simp only [Option.map_some', Option.some.injEq] at h
        obtain ⟨q1, q2, q3⟩ := q
        obtain ⟨rfl, rfl, rfl⟩ := Prod.mk.injEq .. ▸ h
        exact ih q1 _ _ hs

theorem p9here_head (prevOK : Bool) (s d : Str) (h : p9here prevOK s = some d) :
    ∃ x t, d = x :: t ∧ dateHeadOK x = true := by
  rw [p9here] at h
  split at h
  · cases hfind : (matchL p9core s).find? lookaheadOK with
    | none => rw [hfind] at h; exact Option.noConfusion h
    | some cr =>
      rw [hfind] at h
      simp only [Option.map_some', Option.some.injEq] at h
      have hmem := List.mem_of_find?_eq_some hfind
      obtain ⟨x, t, hx, hok⟩ := headOK_p9core s cr hmem
      exact ⟨x, t, by rw [← h]; exact hx, hok⟩
  · exact Option.noConfusion h

theorem p9searchAux_head :
    ∀ (s : Str) (b : Bool) (d : Str), p9searchAux b s = some d →
      ∃ x t, d = x :: t ∧ dateHeadOK x = true := by
  intro s
  induction s with
  | nil => intro b d h; exact p9here_head b [] d h
  | cons c s' ih =>
    intro b d h
    rw [p9searchAux] at h
    cases hp : p9here b (c :: s') with
    | some d0 =>
      rw [hp] at h
      replace h : some d0 = some d := h
      have hd : d0 = d := Option.some.inj h
      subst hd
      exact p9here_head b (c :: s') d0 hp
    | none =>
      rw [hp] at h
      replace h : p9searchAux (!isDigitC c) s' = some d := h
      exact ih _ _ h

theorem lineFirstDate_head (l d : Str) (h : lineFirstDate l = some d) :
    ∃ x t, d = x :: t ∧ dateHeadOK x = true := by
  rw [lineFirstDate] at h
  cases hf : datePatternsPlain.findSome? (fun re => searchPlain re l) with
  | some d0 =>
    rw [hf] at h
    have hd : d0 = d := Option.some.inj h
    subst hd
    obtain ⟨re, hre, hsp⟩ := List.exists_of_findSome?_eq_some hf
    rw [searchPlain] at hsp
    cases hsf : searchFrom re l with
    | none => rw [hsf] at hsp; exact Option.noConfusion hsp
    | some q =>
      rw [hsf] at hsp
      simp only [Option.map_some', Option.some.injEq] at hsp
      obtain ⟨p, c, r⟩ := q
      obtain ⟨s', hmem⟩ := searchFrom_mem re l p c r hsf
      have hok : headOKRE re := by
        simp only [datePatternsPlain, List.mem_cons, List.not_mem_nil, or_false] at hre
        rcases hre with rfl | rfl | rfl | rfl | rfl | rfl | rfl | rfl
        · exact headOKRE_seq _ _ (headOKRE_seq _ _ (headOKRE_litsCI _ (by decide)))
        · exact headOKRE_seq _ _ (headOKRE_seq _ _ (headOKRE_litsCI _ (by decide)))
        · exact headOKRE_seq _ _ (headOKRE_seq _ _ (headOKRE_litsCI _ (by decide)))
        · exact headOKRE_seq _ _ (headOKRE_seq _ _ (headOKRE_litsCI _ (by decide)))
        · exact headOKRE_seq _ _ (headOKRE_seq _ _ (headOKRE_litsCI _ (by decide)))
        · exact headOKRE_seq _ _ (headOKRE_seq _ _ (headOKRE_litsCI _ (by decide)))
        · exact headOKRE_seq _ _ (headOKRE_seq _ _ (headOKRE_litsCI _ (by decide)))
        · exact headOKRE_seq _ _ (headOKRE_seq _ _ (headOKRE_litsCI _ (by decide)))
      obtain ⟨x, t, hx, hxo⟩ := hok s' (c, r) hmem
      exact ⟨x, t, by rw [← hsp]; exact hx, hxo⟩
  | none =>
    rw [hf] at h
    exact p9searchAux_head l true d h

theorem dateHead_not_unknown (d : Str)
    (h : ∃ x t, d = x :: t ∧ dateHeadOK x = true) : d ≠ unknownStr := by
  obtain ⟨x, t, rfl, hok⟩ := h
  intro he
  have hx : x = 'U' := by
    have := congrArg List.head? he
    simpa [unknownStr] using this
  rw [hx] at hok
  exact absurd hok (by decide)

theorem insJobDesc_length (x : JobEntry) :
    ∀ l, (insJobDesc x l).length = l.length + 1 := by
  intro l
  induction l with
  | nil => rfl
  | cons y ys ih =>
    rw [insJobDesc]
    split
    · rfl
    · simp only [List.length_cons, ih]

theorem sortJobsDesc_length (l : List JobEntry) : (sortJobsDesc l).length = l.length := by
  rw [sortJobsDesc]
  have aux : ∀ (l acc : List JobEntry),
      (l.foldl (fun acc x => insJobDesc x acc) acc).length = acc.length + l.length := by
    intro l
    induction l with
    | nil => intro acc; rfl
    | cons x xs ih =>
      intro acc
      rw [List.foldl_cons, ih, insJobDesc_length]
      simp only [List.length_cons]
      omega
  rw [aux l []]
  simp only [List.length_nil]
  omega

theorem mem_insJobDesc (x : JobEntry) :
    ∀ (l : List JobEntry) (e : JobEntry), e ∈ insJobDesc x l → e = x ∨ e ∈ l := by
  intro l
  induction l with
  | nil => intro e h; simpa [insJobDesc] using h
  | cons y ys ih =>
    intro e h
    rw [insJobDesc] at h
    split at h
    · rcases List.mem_cons.mp h with h1 | h2
      · exact Or.inl h1
      · exact Or.inr h2
    · rcases List.mem_cons.mp h with h1 | h2
      · exact Or.inr (by rw [h1]; exact List.mem_cons_self _ _)
      · rcases ih e h2 with h3 | h4
        · exact Or.inl h3
        · exact Or.inr (List.mem_cons_of_mem _ h4)

theorem mem_sortJobsDesc (l : List JobEntry) (e : JobEntry)
    (h : e ∈ sortJobsDesc l) : e ∈ l := by
  rw [sortJobsDesc] at h
  have aux : ∀ (l acc : List JobEntry) (e : JobEntry),
      e ∈ l.foldl (fun acc x => insJobDesc x acc) acc → e ∈ acc ∨ e ∈ l := by
    intro l
    induction l with
    | nil => intro acc e h; exact Or.inl h
    | cons x xs ih =>
      intro acc e h
      rcases ih _ e h with h1 | h2
      · rcases mem_insJobDesc x acc e h1 with h3 | h4
        · exact Or.inr (by rw [h3]; exact List.mem_cons_self _ _)
        · exact Or.inl h4
      · exact Or.inr (List.mem_cons_of_mem _ h2)
  rcases aux l [] e h with h1 | h2
  · simp at h1
  · exact h2

theorem datePositions_length_aux :
    ∀ (lines : List Str) (n : Nat),
      ((List.enumFrom n lines).filterMap
        (fun il => (lineFirstDate il.2).map (fun d => (il.1, d)))).length
        = (lines.filter (fun l => (lineFirstDate l).isSome)).length := by
  intro lines
  induction lines with
  | nil => intro n; rfl
  | cons x xs ih =>
    intro n
    rw [List.enumFrom, List.filterMap_cons, List.filter_cons]
    cases hd : lineFirstDate x with
    | some d => simp [hd, ih]
    | none => simp [hd, ih]

theorem datePositions_length (lines : List Str) :
    (datePositions lines).length
      = (lines.filter (fun l => (lineFirstDate l).isSome)).length :=
  datePositions_length_aux lines 0

theorem datePositions_mem (lines : List Str) (p : Nat × Str)
    (h : p ∈ datePositions lines) : ∃ l ∈ lines, lineFirstDate l = some p.2 := by
  rw [datePositions] at h
  obtain ⟨il, hil, hf⟩ := List.mem_filterMap.mp h
  cases hd : lineFirstDate il.2 with
  | none =>
    rw [hd] at hf
    exact Option.noConfusion hf
  | some d =>
    rw [hd] at hf
    simp only [Option.map_some', Option.some.injEq] at hf
    refine ⟨il.2, enumFrom_snd_mem _ _ _ hil, ?_⟩
    rw [hd, ← hf]

theorem mkJobEntry_date (lines : List Str) (si ei : Nat) (d : Str) :
    (mkJobEntry lines si ei d).date = d := rfl

/-- C9: the extractor returns exactly one entry per line of the located
section on which some date pattern matches (at most one anchor per line),
and every entry's date is the date text matched on its anchor line — in
particular never the placeholder `"Unknown"`. -/
theorem c9_theorem (text sec : Str) (hloc : locateExperienceSection text = some sec) :
    (extract_work_experiences_v2 text).length
      = ((splitLines sec).filter (fun l => (lineFirstDate l).isSome)).length ∧
    ∀ e ∈ extract_work_experiences_v2 text,
      (∃ l ∈ splitLines sec, lineFirstDate l = some e.date) ∧ e.date ≠ unknownStr := by
  have hv2 : extract_work_experiences_v2 text
      = sortJobsDesc ((datePositions (splitLines sec)).enum.map (fun jp =>
          mkJobEntry (splitLines sec) jp.2.1
            (match (datePositions (splitLines sec)).get? (jp.1 + 1) with
             | some q => q.1
             | none => (splitLines sec).length) jp.2.2)) := by
    simp only [extract_work_experiences_v2, hloc]
  constructor
  · rw [hv2, sortJobsDesc_length, List.length_map, List.enum_length,
      datePositions_length]
  · intro e he
    rw [hv2] at he
    have he' := mem_sortJobsDesc _ _ he
    obtain ⟨jp, hjp, hej⟩ := List.mem_map.mp he'
    have hdate : e.date = jp.2.2 := by
      rw [← hej, mkJobEntry_date]
    have hjp2 : jp.2 ∈ datePositions (splitLines sec) := enumFrom_snd_mem _ _ _ hjp
    obtain ⟨l, hl, hld⟩ := datePositions_mem _ _ hjp2
    refine ⟨⟨l, hl, ?_⟩, ?_⟩
    · rw [hdate]
      exact hld
    · rw [hdate]
      exact dateHead_not_unknown _ (lineFirstDate_head l jp.2.2 hld)

def c9Text : Str := "Experience:\nJob\nJan 2020 - Mar 2021".data

def c9Sec : Str := "Job\nJan 2020 - Mar 2021".data

set_option maxRecDepth 100000 in
/-- Witness for C9 at a concrete input with one anchored line. -/
theorem c9_witness :
    locateExperienceSection c9Text = some c9Sec ∧
    ((extract_work_experiences_v2 c9Text).length
        = ((splitLines c9Sec).filter (fun l => (lineFirstDate l).isSome)).length ∧
      ∀ e ∈ extract_work_experiences_v2 c9Text,
        (∃ l ∈ splitLines c9Sec, lineFirstDate l = some e.date) ∧ e.date ≠ unknownStr) :=
  ⟨by decide, c9_theorem c9Text c9Sec (by decide)⟩

end CvPanda
